import Mathlib

/-!
# Verification of the Babel diagram document engine and persistence schema

This development embeds the data model of the Babel XML diagram editor
(federomano/Babel-Juan) and proves the specified properties of its
XML parser/generator, diff engine, mutation API, and of the Supabase
persistence schema (SQL tables, constraints, functions and RLS policies
found in the repository's schema document).

The diagram engine itself (lib/xml, lib/diff, mutation handlers) exists
only as an HTML prototype that is not part of the repository source; the
relevant definitions here are therefore modelled from the specification,
as indicated by their doc comments.  The database layer (tables,
constraints, `get_next_version_number`, `user_can_edit_project`, the RLS
policy lists) is embedded from the SQL that is in the repository.
-/

set_option maxRecDepth 4096

namespace Babel

/-! ## Basic list-of-characters utilities used by the XML layer -/

/-- Split a character list on a separator character.  Always returns a
non-empty list of segments: `splitOnChar c []` is `[[]]`. -/
def splitOnChar (sep : Char) : List Char → List (List Char)
  | [] => [[]]
  | c :: r =>
    if c = sep then [] :: splitOnChar sep r
    else
      match splitOnChar sep r with
      | [] => [[c]]
      | l :: ls => (c :: l) :: ls

/-- Join a list of character lists with a separator character (inverse of
`splitOnChar` for separator-free segments). -/
def joinChar (sep : Char) : List (List Char) → List Char
  | [] => []
  | [l] => l
  | l :: ls => l ++ sep :: joinChar sep ls

theorem splitOnChar_sepFree (sep : Char) (l : List Char) (h : l.all (fun c => c ≠ sep)) :
    splitOnChar sep l = [l] := by
  induction l with
  | nil => rfl
  | cons c r ih =>
    simp only [List.all_cons, Bool.and_eq_true, decide_eq_true_eq] at h
    simp only [splitOnChar, if_neg h.1, ih h.2]

theorem splitOnChar_append (sep : Char) (l r : List Char) (h : l.all (fun c => c ≠ sep)) :
    splitOnChar sep (l ++ sep :: r) = l :: splitOnChar sep r := by
  induction l with
  | nil => simp [splitOnChar]
  | cons c t ih =>
    simp only [List.all_cons, Bool.and_eq_true, decide_eq_true_eq] at h
    simp only [List.cons_append, splitOnChar, if_neg h.1, List.append_eq, ih h.2]

theorem splitOnChar_joinChar (sep : Char) (ls : List (List Char)) (hne : ls ≠ [])
    (h : ∀ l ∈ ls, l.all (fun c => c ≠ sep)) :
    splitOnChar sep (joinChar sep ls) = ls := by
  induction ls with
  | nil => exact absurd rfl hne
  | cons l ls ih =>
    cases ls with
    | nil => simpa [joinChar] using splitOnChar_sepFree sep l (h l (by simp))
    | cons l2 ls2 =>
      have hl : l.all (fun c => c ≠ sep) := h l (by simp)
      rw [show joinChar sep (l :: l2 :: ls2) = l ++ sep :: joinChar sep (l2 :: ls2) from rfl]
      rw [splitOnChar_append sep l _ hl]
      rw [ih (by simp) (fun x hx => h x (List.mem_cons_of_mem _ hx))]

/-! ## The diagram data model

The engine's tree model.  The TypeScript module declaring it
(`types/diagram.ts`, mirrored in the repository docs) declares
`DiagramItem` with `type`, `id`, optional `instanceOf`, `linkTo` as a
comma-separated attribute string and a `children` array; the parser and
generator populating it live only in the HTML prototype that is not part
of the repository source. -/

/-- Kind of a diagram item: `object`/`page` are root-level ("L1I"),
`info`/`functionKind`/`caseKind` are nested ("NL1I").  Mirrors the
TypeScript union `'object' | 'page' | 'info' | 'function' | 'case'`. -/
inductive ItemKind where
  | object
  | page
  | info
  | functionKind
  | caseKind
deriving DecidableEq, Repr

/-- An NL1I kind is one of Info, Function, Case. -/
def ItemKind.isNL1I : ItemKind → Bool
  | .info => true
  | .functionKind => true
  | .caseKind => true
  | .object => false
  | .page => false

/-- Modelled from the spec: §3 Item.  The parser/generator populating the
TypeScript `DiagramItem` are not under the repository source, so the tree
node follows the spec's data model: `title` is an option (absent exactly
on instances), `instanceOf` an optional id, `linkTo` an ordered list of
ids (the comma-split of the XML attribute), `children` an ordered list.
`nestingLevel` and `columnIndex` are derived (depth / position) and not
stored. -/
inductive DiagramItem where
  | mk (id : String) (kind : ItemKind) (title : Option String)
      (instanceOf : Option String) (linkTo : List String)
      (children : List DiagramItem)

def DiagramItem.id : DiagramItem → String
  | .mk i _ _ _ _ _ => i

def DiagramItem.kind : DiagramItem → ItemKind
  | .mk _ k _ _ _ _ => k

def DiagramItem.title : DiagramItem → Option String
  | .mk _ _ t _ _ _ => t

def DiagramItem.instanceOf : DiagramItem → Option String
  | .mk _ _ _ io _ _ => io

def DiagramItem.linkTo : DiagramItem → List String
  | .mk _ _ _ _ lt _ => lt

def DiagramItem.children : DiagramItem → List DiagramItem
  | .mk _ _ _ _ _ ch => ch

/-- The two forests of the document: mirrors the TypeScript `ParsedData`
(`objectMap: DiagramItem[][]`, `siteMap: DiagramItem[][]`): each map is an
ordered list of columns of root items. -/
structure ParsedData where
  objectMap : List (List DiagramItem)
  siteMap : List (List DiagramItem)

mutual

/-- An item together with all of its descendants, in document order. -/
def itemItems : DiagramItem → List DiagramItem
  | .mk i k t io lt ch => .mk i k t io lt ch :: forestItems ch

/-- All items of a forest together with their descendants, in document order. -/
def forestItems : List DiagramItem → List DiagramItem
  | [] => []
  | x :: xs => itemItems x ++ forestItems xs

end

/-- Root items of the Object Map (all columns, in order). -/
def omRoots (pd : ParsedData) : List DiagramItem := pd.objectMap.flatten

/-- Root items of the Site Map (all columns, in order). -/
def smRoots (pd : ParsedData) : List DiagramItem := pd.siteMap.flatten

/-- Every item of the Object Map, including nested ones. -/
def omItems (pd : ParsedData) : List DiagramItem := forestItems (omRoots pd)

/-- Every item of the Site Map, including nested ones. -/
def smItems (pd : ParsedData) : List DiagramItem := forestItems (smRoots pd)

/-- Every item of the document. -/
def allItems (pd : ParsedData) : List DiagramItem := omItems pd ++ smItems pd

/-- The ids of a list of items. -/
def idsOf (l : List DiagramItem) : List String := l.map DiagramItem.id

/-- The non-root (NL1I) items of the Object Map. -/
def omNestedItems (pd : ParsedData) : List DiagramItem :=
  (omRoots pd).flatMap (fun r => forestItems r.children)

/-- The non-root (NL1I) items of the Site Map. -/
def smNestedItems (pd : ParsedData) : List DiagramItem :=
  (smRoots pd).flatMap (fun r => forestItems r.children)

/-- Boolean no-duplicates check on a list of ids. -/
def nodupB : List String → Bool
  | [] => true
  | x :: xs => (!xs.contains x) && nodupB xs

/-- Parser validation rule 3: a non-instance item has a non-empty title; an
instance item has no title of its own. -/
def titleRuleB : DiagramItem → Bool
  | .mk _ _ t io _ _ =>
    match io with
    | none =>
      match t with
      | some s => !(s == "")
      | none => false
    | some _ => t.isNone

/-- Object Map structural rule: roots are Objects; nested items are NL1I
and have no children (nesting depth at most 1 below the Object). -/
def omStructureOk (pd : ParsedData) : Bool :=
  (omRoots pd).all (fun r => r.kind == ItemKind.object) &&
  (omNestedItems pd).all (fun i => i.kind.isNL1I && i.children.isEmpty)

/-- Site Map structural rule: roots are Pages; nested items are NL1I (their
nesting depth is not constrained). -/
def smStructureOk (pd : ParsedData) : Bool :=
  (smRoots pd).all (fun r => r.kind == ItemKind.page) &&
  (smNestedItems pd).all (fun i => i.kind.isNL1I)

/-- Parser validation rule 6: every `linkTo` id resolves to an item of the
same map as the source item. -/
def linksOkB (pd : ParsedData) : Bool :=
  (omItems pd).all (fun i => i.linkTo.all (fun l => (idsOf (omItems pd)).contains l)) &&
  (smItems pd).all (fun i => i.linkTo.all (fun l => (idsOf (smItems pd)).contains l))

/-- Parser validation rule 4: `instanceOf` resolves to an NL1I item of the
Object Map. -/
def instanceRefsOkB (pd : ParsedData) : Bool :=
  (allItems pd).all (fun i =>
    match i.instanceOf with
    | none => true
    | some r => (idsOf (omNestedItems pd)).contains r)

/-- Modelled from the spec: §7 `ParseError` taxonomy. -/
inductive ParseError where
  | malformedMarkup
  | duplicateId
  | missingRequiredAttribute
  | invalidNesting
  | danglingReference
deriving DecidableEq, Repr

/-- Modelled from the spec: §4.2 parser validation, all-or-nothing — the
first violated rule yields the single `ParseError` of the whole parse. -/
def validateData (pd : ParsedData) : Option ParseError :=
  if ¬ nodupB (idsOf (allItems pd)) then some .duplicateId
  else if ¬ (allItems pd).all titleRuleB then some .missingRequiredAttribute
  else if ¬ (omStructureOk pd && smStructureOk pd) then some .invalidNesting
  else if ¬ instanceRefsOkB pd then some .danglingReference
  else if ¬ linksOkB pd then some .danglingReference
  else none

theorem validateData_eq_none (pd : ParsedData) :
    validateData pd = none ↔
      nodupB (idsOf (allItems pd)) = true ∧
      (allItems pd).all titleRuleB = true ∧
      omStructureOk pd = true ∧ smStructureOk pd = true ∧
      instanceRefsOkB pd = true ∧ linksOkB pd = true := by
  unfold validateData
  split_ifs with h1 h2 h3 h4 h5 <;> simp_all

/-! ## Generic XML element layer

Modelled from the spec: §6 document format.  One line per tag, attributes
in double quotes, two-space indentation per level, childless elements
self-closing, elements with children on open/close tag pairs. -/

/-- An XML element: a tag name, an ordered attribute list and children. -/
inductive XElem where
  | el (name : String) (attrs : List (String × String)) (children : List XElem)

/-- One tag line of the document: an opening tag with attributes, a
self-closing tag with attributes, or a closing tag. -/
inductive Tok where
  | openT (name : String) (attrs : List (String × String))
  | selfT (name : String) (attrs : List (String × String))
  | closeT (name : String)

/-- Two spaces of indentation per nesting level. -/
def indentChars (d : Nat) : List Char := List.replicate (2 * d) ' '

/-- Attribute rendering: ` key="value"` for each attribute, in order. -/
def attrChars (as : List (String × String)) : List Char :=
  as.flatMap (fun p => ' ' :: (p.1.data ++ '=' :: '"' :: (p.2.data ++ ['"'])))

/-- Characters of an opening tag line `<Name key="v"...>`. -/
def openLineChars (n : String) (as : List (String × String)) : List Char :=
  '<' :: (n.data ++ attrChars as ++ ['>'])

/-- Characters of a self-closing tag line `<Name key="v".../>`. -/
def selfLineChars (n : String) (as : List (String × String)) : List Char :=
  '<' :: (n.data ++ attrChars as ++ ['/', '>'])

/-- Characters of a closing tag line `</Name>`. -/
def closeLineChars (n : String) : List Char :=
  '<' :: '/' :: (n.data ++ ['>'])

mutual

/-- The lines serializing one element at indentation depth `d`. -/
def xelemLines : Nat → XElem → List (List Char)
  | d, .el n as [] => [indentChars d ++ selfLineChars n as]
  | d, .el n as (c :: cs) =>
    (indentChars d ++ openLineChars n as) ::
      (xforestLines (d + 1) (c :: cs) ++ [indentChars d ++ closeLineChars n])

/-- The lines serializing a forest of elements at depth `d`. -/
def xforestLines : Nat → List XElem → List (List Char)
  | _, [] => []
  | d, x :: xs => xelemLines d x ++ xforestLines d xs

end

mutual

/-- The token stream of one element. -/
def xelemToks : XElem → List Tok
  | .el n as [] => [.selfT n as]
  | .el n as (c :: cs) => .openT n as :: (xforestToks (c :: cs) ++ [.closeT n])

/-- The token stream of a forest. -/
def xforestToks : List XElem → List Tok
  | [] => []
  | x :: xs => xelemToks x ++ xforestToks xs

end

/-- Tag and attribute names are alphabetic. -/
def isNameChar (c : Char) : Bool := c.isAlpha

/-- Drop leading indentation spaces. -/
def dropSpaces : List Char → List Char
  | [] => []
  | c :: r => if c = ' ' then dropSpaces r else c :: r

/-- Scan a maximal run of name characters. -/
def takeName : List Char → List Char × List Char
  | [] => ([], [])
  | c :: r =>
    if isNameChar c then
      let (a, b) := takeName r
      (c :: a, b)
    else ([], c :: r)

/-- Scan a quoted attribute value up to the closing `"`. -/
def takeQuoted : List Char → Option (List Char × List Char)
  | [] => none
  | c :: r =>
    if c = '"' then some ([], r)
    else
      match takeQuoted r with
      | some (v, rest) => some (c :: v, rest)
      | none => none

/-- Scan a (possibly empty) run of ` key="value"` attributes; the fuel
bounds the number of attributes (callers pass the remaining line length). -/
def parseAttrsChars : Nat → List Char → Option (List (String × String) × List Char)
  | 0, _ => none
  | _ + 1, [] => some ([], [])
  | f + 1, c :: r =>
    if c = ' ' then
      let nm := (takeName r).1
      let r1 := (takeName r).2
      if nm.isEmpty then none
      else
        match r1 with
        | [] => none
        | c1 :: r2 =>
          if c1 = '=' then
            match r2 with
            | [] => none
            | c2 :: r3 =>
              if c2 = '"' then
                match takeQuoted r3 with
                | some (v, r4) =>
                  match parseAttrsChars f r4 with
                  | some (attrs, r5) => some ((String.mk nm, String.mk v) :: attrs, r5)
                  | none => none
                | none => none
              else none
          else none
    else some ([], c :: r)

/-- Tokenize one line of markup, ignoring indentation. -/
def tokOfLine (line : List Char) : Option Tok :=
  match dropSpaces line with
  | [] => none
  | c :: rest =>
    if c = '<' then
      match rest with
      | [] => none
      | c2 :: r =>
        if c2 = '/' then
          let nm := (takeName r).1
          let r1 := (takeName r).2
          if nm.isEmpty then none
          else if r1 = ['>'] then some (.closeT (String.mk nm)) else none
        else
          let nm := (takeName (c2 :: r)).1
          let r1 := (takeName (c2 :: r)).2
          if nm.isEmpty then none
          else
            match parseAttrsChars (r1.length + 1) r1 with
            | none => none
            | some (as, tail) =>
              if tail = ['>'] then some (.openT (String.mk nm) as)
              else if tail = ['/', '>'] then some (.selfT (String.mk nm) as)
              else none
    else none

/-- Tokenize all lines of the document body. -/
def tokenizeLines : List (List Char) → Option (List Tok)
  | [] => some []
  | l :: ls =>
    match tokOfLine l, tokenizeLines ls with
    | some t, some ts => some (t :: ts)
    | _, _ => none

/-- Parse a maximal forest of elements off the front of a token stream,
returning the forest and the unconsumed tail (which starts with the
enclosing close tag, if any).  The fuel bounds the recursion; callers pass
one more than the stream length. -/
def parseTokForest : Nat → List Tok → Option (List XElem × List Tok)
  | 0, _ => none
  | _ + 1, [] => some ([], [])
  | _ + 1, Tok.closeT n :: rest => some ([], Tok.closeT n :: rest)
  | f + 1, Tok.selfT n as :: rest =>
    match parseTokForest f rest with
    | some (sibs, r) => some (XElem.el n as [] :: sibs, r)
    | none => none
  | f + 1, Tok.openT n as :: rest =>
    match parseTokForest f rest with
    | some (cs, Tok.closeT n2 :: r) =>
      if n2 = n then
        match parseTokForest f r with
        | some (sibs, r2) => some (XElem.el n as cs :: sibs, r2)
        | none => none
      else none
    | _ => none

/-! ## Between the tree model and XML elements -/

/-- Tag name of an item kind (as in the document format). -/
def kindTagName : ItemKind → String
  | .object => "Object"
  | .page => "Page"
  | .info => "Info"
  | .functionKind => "Function"
  | .caseKind => "Case"

/-- Item kind of a tag name. -/
def kindOfTagName (n : String) : Option ItemKind :=
  if n = "Object" then some .object
  else if n = "Page" then some .page
  else if n = "Info" then some .info
  else if n = "Function" then some .functionKind
  else if n = "Case" then some .caseKind
  else none

/-- Comma-join a `linkTo` id list into the attribute value. -/
def joinComma (ids : List String) : String :=
  String.mk (joinChar ',' (ids.map String.data))

/-- Comma-split a `linkTo` attribute value into the id list. -/
def splitComma (s : String) : List String :=
  (splitOnChar ',' s.data).map String.mk

/-- Attributes of an item, in the stable order `id`, then `title` or
`instanceOf`, then `linkTo` (omitted when empty). -/
def itemAttrs : DiagramItem → List (String × String)
  | .mk i _ t io lt _ =>
    ("id", i) ::
      ((match t with | some s => [("title", s)] | none => []) ++
        (match io with | some s => [("instanceOf", s)] | none => []) ++
        (if lt.isEmpty then [] else [("linkTo", joinComma lt)]))

mutual

/-- Element of one item. -/
def itemToX : DiagramItem → XElem
  | .mk i k t io lt ch => .el (kindTagName k) (itemAttrs (.mk i k t io lt ch)) (forestToX ch)

/-- Elements of an item forest. -/
def forestToX : List DiagramItem → List XElem
  | [] => []
  | x :: xs => itemToX x :: forestToX xs

end

/-- Element of one column. -/
def columnToX (col : List DiagramItem) : XElem := .el "Column" [] (forestToX col)

/-- The document root element of a tree:
`<xml><Diagram><ObjectMap>…</ObjectMap><SiteMap>…</SiteMap></Diagram></xml>`. -/
def dataToX (pd : ParsedData) : XElem :=
  .el "xml" []
    [.el "Diagram" []
      [.el "ObjectMap" [] (pd.objectMap.map columnToX),
        .el "SiteMap" [] (pd.siteMap.map columnToX)]]

/-- The fixed document header line. -/
def xmlHeader : String := "<?xml version=\"1.0\" encoding=\"UTF-8\"?>"

/-- Modelled from the spec: §4.3 Generator (`generateXML` in the migration
plan; the extracted `lib/xml/generator.ts` is not under the repository
source).  Serializes the tree deterministically: header line, skeleton,
one `Column` per forest column, nested elements per item, stable
attribute order, two-space indentation. -/
def generateXML (pd : ParsedData) : String :=
  String.mk (joinChar '\n' (xmlHeader.data :: xelemLines 0 (dataToX pd)))

/-- The attribute keys an item tag may carry. -/
def allowedAttrKeys : List String := ["id", "title", "instanceOf", "linkTo"]

mutual

/-- Read one item back from its element. -/
def xToItem : XElem → Option DiagramItem
  | .el n as cs =>
    match kindOfTagName n with
    | none => none
    | some k =>
      match List.lookup "id" as with
      | none => none
      | some i =>
        if as.all (fun p => allowedAttrKeys.contains p.1) then
          match xToForest cs with
          | some ch =>
            some (.mk i k (List.lookup "title" as) (List.lookup "instanceOf" as)
              (match List.lookup "linkTo" as with | none => [] | some s => splitComma s) ch)
          | none => none
        else none

/-- Read an item forest back from elements. -/
def xToForest : List XElem → Option (List DiagramItem)
  | [] => some []
  | x :: xs =>
    match xToItem x, xToForest xs with
    | some a, some b => some (a :: b)
    | _, _ => none

end

/-- Read the column list of a map back from `Column` elements. -/
def xToColumns : List XElem → Option (List (List DiagramItem))
  | [] => some []
  | .el n as cs :: xs =>
    if n = "Column" then
      match as with
      | [] =>
        match xToForest cs, xToColumns xs with
        | some col, some cols => some (col :: cols)
        | _, _ => none
      | _ => none
    else none

/-- Read the whole tree back from the parsed root forest, checking the
fixed `<xml><Diagram><ObjectMap>…<SiteMap>…` skeleton. -/
def xForestToData : List XElem → Option ParsedData
  | [XElem.el nx ax [XElem.el nd ad [XElem.el no ao om, XElem.el ns as2 sm]]] =>
    if nx = "xml" ∧ ax = [] ∧ nd = "Diagram" ∧ ad = [] ∧
        no = "ObjectMap" ∧ ao = [] ∧ ns = "SiteMap" ∧ as2 = [] then
      match xToColumns om, xToColumns sm with
      | some o, some s => some ⟨o, s⟩
      | _, _ => none
    else none
  | _ => none

/-- Modelled from the spec: §4.2 Parser (`parseXML` in the migration plan;
the extracted `lib/xml/parser.ts` is not under the repository source).
All-or-nothing: header check, line tokenization, tag-tree parsing,
skeleton extraction, then whole-document validation; any violation
returns a single `ParseError` and no tree. -/
def parseXML (s : String) : Except ParseError ParsedData :=
  match splitOnChar '\n' s.data with
  | [] => .error .malformedMarkup
  | hd :: rest =>
    if hd = xmlHeader.data then
      match tokenizeLines rest with
      | none => .error .malformedMarkup
      | some toks =>
        match parseTokForest (toks.length + 1) toks with
        | some (forest, []) =>
          match xForestToData forest with
          | none => .error .malformedMarkup
          | some pd =>
            match validateData pd with
            | some e => .error e
            | none => .ok pd
        | _ => .error .malformedMarkup
    else .error .malformedMarkup

/-! ## Character safety

A character may appear in an attribute value unless it is the value
delimiter or the line separator; `linkTo` entries additionally exclude
the comma used to join them. -/

/-- A character that may appear in an attribute value. -/
def safeChar (c : Char) : Bool := !(c = '"') && !(c = '\n')

/-- A string all of whose characters may appear in an attribute value. -/
def safeStr (s : String) : Bool := s.data.all safeChar

/-- A character that may appear in a single `linkTo` id. -/
def linkChar (c : Char) : Bool := safeChar c && !(c = ',')

/-- A `linkTo` id: value-safe and comma-free. -/
def safeLink (s : String) : Bool := s.data.all linkChar

/-- Safety of an optional attribute value. -/
def safeOpt : Option String → Bool
  | none => true
  | some s => safeStr s

mutual

/-- All strings of an item (and its descendants) are attribute-safe. -/
def itemCharsOk : DiagramItem → Bool
  | .mk i _ t io lt ch =>
    safeStr i && safeOpt t && safeOpt io && lt.all safeLink && forestCharsOk ch

/-- All strings of a forest are attribute-safe. -/
def forestCharsOk : List DiagramItem → Bool
  | [] => true
  | x :: xs => itemCharsOk x && forestCharsOk xs

end

/-- All strings of a tree are attribute-safe. -/
def dataCharsOk (pd : ParsedData) : Bool :=
  pd.objectMap.all forestCharsOk && pd.siteMap.all forestCharsOk

/-- A valid tag or attribute name: non-empty and alphabetic. -/
def nameOkB (s : String) : Bool := !s.data.isEmpty && s.data.all isNameChar

/-- A well-formed attribute: valid key, value-safe value. -/
def attrOkB (p : String × String) : Bool := nameOkB p.1 && p.2.data.all safeChar

mutual

/-- A printable element: valid names throughout, safe attribute values. -/
def xValid : XElem → Bool
  | .el n as cs => nameOkB n && as.all attrOkB && xForestValid cs

/-- A printable forest. -/
def xForestValid : List XElem → Bool
  | [] => true
  | x :: xs => xValid x && xForestValid xs

end

/-! ## Scanning lemmas -/

theorem stringMkData (s : String) : String.mk s.data = s := rfl

theorem isEmptyFalseNeNil {α : Type} {l : List α} (h : l.isEmpty = false) : l ≠ [] := by
  cases l <;> simp_all [List.isEmpty]

theorem dropSpaces_replicate (n : Nat) (l : List Char) :
    dropSpaces (List.replicate n ' ' ++ l) = dropSpaces l := by
  induction n with
  | zero => rfl
  | succ k ih => simp [List.replicate_succ, dropSpaces, ih]

theorem dropSpaces_indent (d : Nat) (l : List Char) :
    dropSpaces (indentChars d ++ l) = dropSpaces l :=
  dropSpaces_replicate (2 * d) l

theorem dropSpaces_lt (l : List Char) : dropSpaces ('<' :: l) = '<' :: l := by
  simp [dropSpaces]

/-- The head of a list is not a name character (vacuous for `[]`). -/
def headNameFree : List Char → Bool
  | [] => true
  | c :: _ => !isNameChar c

theorem takeName_append (n rest : List Char) (hn : n.all isNameChar = true)
    (hr : headNameFree rest = true) : takeName (n ++ rest) = (n, rest) := by
  induction n with
  | nil =>
    cases rest with
    | nil => rfl
    | cons c r =>
      simp only [headNameFree, Bool.not_eq_true'] at hr
      simp [takeName, hr]
  | cons c t ih =>
    simp only [List.all_cons, Bool.and_eq_true] at hn
    simp [takeName, hn.1, ih hn.2]

theorem takeQuoted_append (v r : List Char) (hv : v.all safeChar = true) :
    takeQuoted (v ++ '"' :: r) = some (v, r) := by
  induction v with
  | nil => simp [takeQuoted]
  | cons c t ih =>
    simp only [List.all_cons, Bool.and_eq_true, safeChar, Bool.not_eq_true',
      decide_eq_false_iff_not] at hv
    simp [takeQuoted, hv.1.1, ih (by
      simp only [List.all_eq_true] at hv ⊢
      intro x hx
      exact hv.2 x hx)]

/-- The head of a list is not a space (vacuous for `[]`). -/
def headNotSpace : List Char → Bool
  | [] => true
  | c :: _ => !(c = ' ')

theorem attrChars_nil : attrChars [] = [] := rfl

theorem attrChars_cons (p : String × String) (ps : List (String × String)) :
    attrChars (p :: ps) =
      ' ' :: (p.1.data ++ '=' :: '"' :: (p.2.data ++ ['"'])) ++ attrChars ps := by
  simp [attrChars]

theorem headNameFree_attrChars (as : List (String × String)) (tail : List Char)
    (ht : headNameFree tail = true) : headNameFree (attrChars as ++ tail) = true := by
  cases as with
  | nil => simpa [attrChars_nil]
  | cons p ps => simp [attrChars_cons, headNameFree, isNameChar]

theorem parseAttrsChars_inv (as : List (String × String)) (rest : List Char) (f : Nat)
    (has : as.all attrOkB = true) (hf : as.length < f) (hrest : headNotSpace rest = true) :
    parseAttrsChars f (attrChars as ++ rest) = some (as, rest) := by
  induction as generalizing f with
  | nil =>
    rw [attrChars_nil, List.nil_append]
    match f, hf with
    | g + 1, _ =>
      cases rest with
      | nil => rfl
      | cons c r =>
        simp only [headNotSpace, Bool.not_eq_true', decide_eq_false_iff_not] at hrest
        simp [parseAttrsChars, hrest]
  | cons p ps ih =>
    match f, hf with
    | g + 1, hf =>
      simp only [List.all_cons, Bool.and_eq_true, attrOkB, nameOkB, Bool.not_eq_true'] at has
      obtain ⟨⟨⟨hk1, hk2⟩, hv⟩, hps⟩ := has
      rw [attrChars_cons]
      have hkey := takeName_append p.1.data
        ('=' :: '"' :: (p.2.data ++ '"' :: (attrChars ps ++ rest))) hk2
        (by simp [headNameFree, isNameChar])
      have hquote : takeQuoted (p.2.data ++ '"' :: (attrChars ps ++ rest))
          = some (p.2.data, attrChars ps ++ rest) := takeQuoted_append _ _ hv
      have hlen : ps.length < g := Nat.lt_of_succ_lt_succ hf
      have hrec := ih g hps hlen
      simp only [List.cons_append, List.append_assoc, List.singleton_append, List.nil_append]
      simp [parseAttrsChars, hkey, hk1, hquote, hrec, stringMkData]

theorem attrChars_length_le (as : List (String × String)) :
    as.length ≤ (attrChars as).length := by
  induction as with
  | nil => simp [attrChars_nil]
  | cons p ps ih =>
    rw [attrChars_cons]
    simp only [List.length_cons, List.length_append]
    omega

theorem isNameChar_ne_slash {c : Char} (h : isNameChar c = true) : ¬ (c = '/') := by
  intro hc
  subst hc
  simp [isNameChar, Char.isAlpha, Char.isUpper, Char.isLower] at h

theorem name_data_cons (n : String) (hn : nameOkB n = true) :
    ∃ c0 nt, n.data = c0 :: nt ∧ isNameChar c0 = true ∧ nt.all isNameChar = true := by
  simp only [nameOkB, Bool.and_eq_true, Bool.not_eq_true'] at hn
  obtain ⟨hn1, hn2⟩ := hn
  cases h : n.data with
  | nil => rw [h] at hn1; simp [List.isEmpty] at hn1
  | cons a b =>
    rw [h] at hn2
    simp only [List.all_cons, Bool.and_eq_true] at hn2
    exact ⟨a, b, rfl, hn2.1, hn2.2⟩

theorem tokOfLine_openLine (d : Nat) (n : String) (as : List (String × String))
    (hn : nameOkB n = true) (has : as.all attrOkB = true) :
    tokOfLine (indentChars d ++ openLineChars n as) = some (Tok.openT n as) := by
  obtain ⟨c0, nt, hsplit, hc0, hnt⟩ := name_data_cons n hn
  have htn := takeName_append n.data (attrChars as ++ ['>'])
    (by simp only [nameOkB, Bool.and_eq_true] at hn; exact hn.2)
    (headNameFree_attrChars as ['>'] (by decide))
  have hinv := parseAttrsChars_inv as ['>'] ((attrChars as ++ ['>']).length + 1) has
    (by
      have := attrChars_length_le as
      simp only [List.length_append, List.length_cons, List.length_nil]
      omega)
    (by decide)
  rw [hsplit] at htn
  have hne : n.data ≠ [] := by rw [hsplit]; simp
  simp only [List.cons_append, List.append_assoc, List.nil_append, List.length_append,
    List.length_cons, List.length_nil] at htn hinv
  simp only [openLineChars, tokOfLine, dropSpaces_indent, List.cons_append, dropSpaces_lt,
    List.append_assoc, hsplit]
  simp [isNameChar_ne_slash hc0, htn, hinv, ← hsplit, stringMkData, hne]

theorem tokOfLine_selfLine (d : Nat) (n : String) (as : List (String × String))
    (hn : nameOkB n = true) (has : as.all attrOkB = true) :
    tokOfLine (indentChars d ++ selfLineChars n as) = some (Tok.selfT n as) := by
  obtain ⟨c0, nt, hsplit, hc0, hnt⟩ := name_data_cons n hn
  have htn := takeName_append n.data (attrChars as ++ ['/', '>'])
    (by simp only [nameOkB, Bool.and_eq_true] at hn; exact hn.2)
    (headNameFree_attrChars as ['/', '>'] (by decide))
  have hinv := parseAttrsChars_inv as ['/', '>'] ((attrChars as ++ ['/', '>']).length + 1) has
    (by
      have := attrChars_length_le as
      simp only [List.length_append, List.length_cons, List.length_nil]
      omega)
    (by decide)
  rw [hsplit] at htn
  have hne : n.data ≠ [] := by rw [hsplit]; simp
  simp only [List.cons_append, List.append_assoc, List.nil_append, List.length_append,
    List.length_cons, List.length_nil] at htn hinv
  simp only [selfLineChars, tokOfLine, dropSpaces_indent, List.cons_append, dropSpaces_lt,
    List.append_assoc, hsplit]
  simp [isNameChar_ne_slash hc0, htn, hinv, ← hsplit, stringMkData, hne]

theorem tokOfLine_closeLine (d : Nat) (n : String) (hn : nameOkB n = true) :
    tokOfLine (indentChars d ++ closeLineChars n) = some (Tok.closeT n) := by
  have htn := takeName_append n.data ['>']
    (by simp only [nameOkB, Bool.and_eq_true] at hn; exact hn.2)
    (by decide)
  simp only [closeLineChars, tokOfLine, dropSpaces_indent, List.cons_append, dropSpaces_lt]
  simp [htn, stringMkData, isEmptyFalseNeNil, show ¬ ('/' = ' ') by decide,
    (by simp only [nameOkB, Bool.and_eq_true, Bool.not_eq_true'] at hn; exact hn.1 :
      n.data.isEmpty = false)]

theorem tokenizeLines_append {a b : List (List Char)} {ta tb : List Tok}
    (ha : tokenizeLines a = some ta) (hb : tokenizeLines b = some tb) :
    tokenizeLines (a ++ b) = some (ta ++ tb) := by
  induction a generalizing ta with
  | nil =>
    simp only [tokenizeLines] at ha
    cases ha
    simpa using hb
  | cons l ls ih =>
    simp only [tokenizeLines] at ha ⊢
    cases h1 : tokOfLine l with
    | none => rw [h1] at ha; simp at ha
    | some t =>
      rw [h1] at ha
      cases h2 : tokenizeLines ls with
      | none => rw [h2] at ha; simp at ha
      | some ts =>
        rw [h2] at ha
        simp only [Option.some.injEq] at ha
        subst ha
        rw [List.cons_append]
        simp [tokenizeLines, List.append_eq, h1, ih h2]

mutual

theorem tokenize_xelemLines : ∀ (d : Nat) (x : XElem), xValid x = true →
    tokenizeLines (xelemLines d x) = some (xelemToks x)
  | d, .el n as [], hx => by
    simp only [xValid, Bool.and_eq_true] at hx
    simp [xelemLines, xelemToks, tokenizeLines, tokOfLine_selfLine d n as hx.1.1 hx.1.2]
  | d, .el n as (c :: cs), hx => by
    simp only [xValid, Bool.and_eq_true] at hx
    have hopen := tokOfLine_openLine d n as hx.1.1 hx.1.2
    have hclose : tokenizeLines [indentChars d ++ closeLineChars n] = some [Tok.closeT n] := by
      simp [tokenizeLines, tokOfLine_closeLine d n hx.1.1]
    have hbody := tokenize_xforestLines (d + 1) (c :: cs) hx.2
    have happ := tokenizeLines_append hbody hclose
    simp [xelemLines, xelemToks, tokenizeLines, hopen, happ]

theorem tokenize_xforestLines : ∀ (d : Nat) (xs : List XElem), xForestValid xs = true →
    tokenizeLines (xforestLines d xs) = some (xforestToks xs)
  | _, [], _ => rfl
  | d, x :: xs, h => by
    simp only [xForestValid, Bool.and_eq_true] at h
    have h1 := tokenize_xelemLines d x h.1
    have h2 := tokenize_xforestLines d xs h.2
    simp [xforestLines, xforestToks, tokenizeLines_append h1 h2]

end

theorem parseTokForest_inv (f : Nat) :
    ∀ (xs : List XElem) (rest : List Tok),
      (rest = [] ∨ ∃ n r, rest = Tok.closeT n :: r) →
      (xforestToks xs).length < f →
      parseTokForest f (xforestToks xs ++ rest) = some (xs, rest) := by
  induction f with
  | zero => exact fun xs rest _ h => absurd h (Nat.not_lt_zero _)
  | succ g ih =>
    intro xs rest hstop hlen
    match xs with
    | [] =>
      rcases hstop with h | ⟨n, r, h⟩ <;> subst h <;>
        simp [xforestToks, parseTokForest]
    | XElem.el n as [] :: xs' =>
      have hlen' : (xforestToks xs').length < g := by
        simp only [xforestToks, xelemToks, List.length_append, List.length_cons,
          List.length_nil] at hlen
        omega
      have hrec := ih xs' rest hstop hlen'
      simp only [xforestToks, xelemToks, List.cons_append, List.nil_append]
      simp [parseTokForest, hrec]
    | XElem.el n as (c :: cs) :: xs' =>
      have hlenc : (xforestToks (c :: cs)).length < g := by
        simp only [xforestToks, xelemToks, List.length_append, List.length_cons] at hlen ⊢
        omega
      have hlens : (xforestToks xs').length < g := by
        simp only [xforestToks, xelemToks, List.length_append, List.length_cons] at hlen ⊢
        omega
      have hrec1 := ih (c :: cs) (Tok.closeT n :: (xforestToks xs' ++ rest))
        (Or.inr ⟨n, xforestToks xs' ++ rest, rfl⟩) hlenc
      have hrec2 := ih xs' rest hstop hlens
      simp only [xforestToks, xelemToks, List.cons_append, List.append_assoc,
        List.nil_append] at hrec1 ⊢
      simp [parseTokForest, hrec1, hrec2]

/-! ## Reading back what the generator wrote -/

theorem kindOfTagName_kindTagName (k : ItemKind) : kindOfTagName (kindTagName k) = some k := by
  cases k <;> rfl

theorem map_mk_map_data (l : List String) : (l.map String.data).map String.mk = l := by
  induction l with
  | nil => rfl
  | cons a t ih => simp [ih, stringMkData]

theorem splitComma_joinComma (ids : List String) (hne : ids ≠ [])
    (h : ids.all safeLink = true) : splitComma (joinComma ids) = ids := by
  have hsep : ∀ l ∈ ids.map String.data, l.all (fun c => c ≠ ',') = true := by
    intro l hl
    simp only [List.mem_map] at hl
    obtain ⟨s, hs, rfl⟩ := hl
    have hall := List.all_eq_true.mp h s hs
    simp only [safeLink, List.all_eq_true] at hall
    simp only [List.all_eq_true]
    intro c hc
    have h2 := hall c hc
    simp only [linkChar, Bool.and_eq_true, Bool.not_eq_true', decide_eq_false_iff_not] at h2
    simpa using h2.2
  have hj := splitOnChar_joinChar ',' (ids.map String.data) (by simpa using hne) hsep
  unfold splitComma joinComma
  rw [show (String.mk (joinChar ',' (ids.map String.data))).data
      = joinChar ',' (ids.map String.data) from rfl, hj, map_mk_map_data]

theorem lookup_id_itemAttrs (i : String) (k : ItemKind) (t io : Option String)
    (lt : List String) (ch : List DiagramItem) :
    List.lookup "id" (itemAttrs (.mk i k t io lt ch)) = some i := by
  cases t <;> cases io <;> cases lt <;> rfl

theorem lookup_title_itemAttrs (i : String) (k : ItemKind) (t io : Option String)
    (lt : List String) (ch : List DiagramItem) :
    List.lookup "title" (itemAttrs (.mk i k t io lt ch)) = t := by
  cases t <;> cases io <;> cases lt <;> rfl

theorem lookup_instanceOf_itemAttrs (i : String) (k : ItemKind) (t io : Option String)
    (lt : List String) (ch : List DiagramItem) :
    List.lookup "instanceOf" (itemAttrs (.mk i k t io lt ch)) = io := by
  cases t <;> cases io <;> cases lt <;> rfl

theorem keys_itemAttrs (i : String) (k : ItemKind) (t io : Option String)
    (lt : List String) (ch : List DiagramItem) :
    (itemAttrs (.mk i k t io lt ch)).all (fun p => allowedAttrKeys.contains p.1) = true := by
  cases t <;> cases io <;> cases lt <;> rfl

mutual

theorem xToItem_itemToX : ∀ (it : DiagramItem), itemCharsOk it = true →
    xToItem (itemToX it) = some it
  | .mk i k t io lt ch, h => by
    simp only [itemCharsOk, Bool.and_eq_true] at h
    obtain ⟨⟨⟨⟨hi, ht⟩, hio⟩, hlt⟩, hch⟩ := h
    have hrec := xToForest_forestToX ch hch
    have hlink : (match List.lookup "linkTo" (itemAttrs (.mk i k t io lt ch)) with
        | none => [] | some s => splitComma s) = lt := by
      cases hl : lt with
      | nil =>
        have : List.lookup "linkTo" (itemAttrs (.mk i k t io [] ch)) = none := by
          cases t <;> cases io <;> rfl
        rw [this]
      | cons a tl =>
        have : List.lookup "linkTo" (itemAttrs (.mk i k t io (a :: tl) ch))
            = some (joinComma (a :: tl)) := by
          cases t <;> cases io <;> rfl
        rw [this]
        exact splitComma_joinComma (a :: tl) (by simp) (hl ▸ hlt)
    simp only [itemToX, xToItem, kindOfTagName_kindTagName, lookup_id_itemAttrs,
      lookup_title_itemAttrs, lookup_instanceOf_itemAttrs, keys_itemAttrs, hrec, hlink, if_true]

theorem xToForest_forestToX : ∀ (its : List DiagramItem), forestCharsOk its = true →
    xToForest (forestToX its) = some its
  | [], _ => rfl
  | x :: xs, h => by
    simp only [forestCharsOk, Bool.and_eq_true] at h
    simp [forestToX, xToForest, xToItem_itemToX x h.1, xToForest_forestToX xs h.2]

end

theorem xToColumns_map (cols : List (List DiagramItem)) (h : cols.all forestCharsOk = true) :
    xToColumns (cols.map columnToX) = some cols := by
  induction cols with
  | nil => rfl
  | cons col cs ih =>
    simp only [List.all_cons, Bool.and_eq_true] at h
    simp [columnToX, xToColumns, xToForest_forestToX col h.1, ih h.2]

theorem xForestToData_dataToX (pd : ParsedData) (h : dataCharsOk pd = true) :
    xForestToData [dataToX pd] = some pd := by
  simp only [dataCharsOk, Bool.and_eq_true] at h
  simp [dataToX, xForestToData, xToColumns_map pd.objectMap h.1, xToColumns_map pd.siteMap h.2]

/-! ## Validity of generated markup -/

theorem dataMkChars (l : List Char) : (String.mk l).data = l := rfl

theorem joinChar_safe : ∀ (ls : List (List Char)), (∀ l ∈ ls, l.all linkChar = true) →
    (joinChar ',' ls).all safeChar = true
  | [], _ => rfl
  | [l], h => by
    have h1 := h l (by simp)
    simp only [joinChar, List.all_eq_true] at h1 ⊢
    intro c hc
    have h2 := h1 c hc
    simp only [linkChar, Bool.and_eq_true] at h2
    exact h2.1
  | l :: l2 :: ls, h => by
    have h1 := h l (by simp)
    have hrest := joinChar_safe (l2 :: ls) (fun x hx => h x (List.mem_cons_of_mem _ hx))
    show (l ++ ',' :: joinChar ',' (l2 :: ls)).all safeChar = true
    simp only [List.all_append, List.all_cons, Bool.and_eq_true]
    refine ⟨?_, by decide, hrest⟩
    simp only [List.all_eq_true] at h1 ⊢
    intro c hc
    have h2 := h1 c hc
    simp only [linkChar, Bool.and_eq_true] at h2
    exact h2.1

theorem joinComma_safe (lt : List String) (h : lt.all safeLink = true) :
    (joinComma lt).data.all safeChar = true := by
  unfold joinComma
  rw [dataMkChars]
  apply joinChar_safe
  intro l hl
  simp only [List.mem_map] at hl
  obtain ⟨s, hs, rfl⟩ := hl
  simpa [safeLink] using List.all_eq_true.mp h s hs

theorem itemAttrs_all_attrOkB (i : String) (k : ItemKind) (t io : Option String)
    (lt : List String) (ch : List DiagramItem)
    (hi : safeStr i = true) (ht : safeOpt t = true) (hio : safeOpt io = true)
    (hlt : lt.all safeLink = true) :
    (itemAttrs (.mk i k t io lt ch)).all attrOkB = true := by
  have hid : nameOkB "id" = true := by rfl
  have htt : nameOkB "title" = true := by rfl
  have hin : nameOkB "instanceOf" = true := by rfl
  have hlk : nameOkB "linkTo" = true := by rfl
  have hjoin := joinComma_safe lt hlt
  cases t <;> cases io <;> cases lt <;>
    simp_all [itemAttrs, attrOkB, safeOpt, safeStr, List.all_cons, List.all_nil, List.all_append]

mutual

theorem xValid_itemToX : ∀ (it : DiagramItem), itemCharsOk it = true →
    xValid (itemToX it) = true
  | .mk i k t io lt ch, h => by
    simp only [itemCharsOk, Bool.and_eq_true] at h
    obtain ⟨⟨⟨⟨hi, ht⟩, hio⟩, hlt⟩, hch⟩ := h
    have hname : nameOkB (kindTagName k) = true := by cases k <;> rfl
    have hattrs := itemAttrs_all_attrOkB i k t io lt ch hi ht hio hlt
    have hrec := xForestValid_forestToX ch hch
    simp [itemToX, xValid, hname, hattrs, hrec]

theorem xForestValid_forestToX : ∀ (its : List DiagramItem), forestCharsOk its = true →
    xForestValid (forestToX its) = true
  | [], _ => rfl
  | x :: xs, h => by
    simp only [forestCharsOk, Bool.and_eq_true] at h
    simp [forestToX, xForestValid, xValid_itemToX x h.1, xForestValid_forestToX xs h.2]

end

theorem xForestValid_map_columnToX (cols : List (List DiagramItem))
    (h : cols.all forestCharsOk = true) : xForestValid (cols.map columnToX) = true := by
  induction cols with
  | nil => rfl
  | cons c cs ih =>
    simp only [List.all_cons, Bool.and_eq_true] at h
    have h1 : nameOkB "Column" = true := by rfl
    have hcol : xValid (columnToX c) = true := by
      simp [columnToX, xValid, h1, xForestValid_forestToX c h.1]
    simp [List.map_cons, xForestValid, hcol, ih h.2]

theorem xValid_dataToX (pd : ParsedData) (h : dataCharsOk pd = true) :
    xValid (dataToX pd) = true := by
  simp only [dataCharsOk, Bool.and_eq_true] at h
  have h1 : nameOkB "xml" = true := by rfl
  have h2 : nameOkB "Diagram" = true := by rfl
  have h3 : nameOkB "ObjectMap" = true := by rfl
  have h4 : nameOkB "SiteMap" = true := by rfl
  simp [dataToX, xValid, xForestValid, h1, h2, h3, h4,
    xForestValid_map_columnToX pd.objectMap h.1, xForestValid_map_columnToX pd.siteMap h.2]

/-! ## No line of generated markup contains the line separator -/

theorem noNL_of_safe {l : List Char} (h : l.all safeChar = true) :
    l.all (fun c => c ≠ '\n') = true := by
  simp only [List.all_eq_true, decide_eq_true_eq] at h ⊢
  intro c hc
  have := h c hc
  simp only [safeChar, Bool.and_eq_true, Bool.not_eq_true', decide_eq_false_iff_not] at this
  exact this.2

theorem noNL_of_name {l : List Char} (h : l.all isNameChar = true) :
    l.all (fun c => c ≠ '\n') = true := by
  simp only [List.all_eq_true, decide_eq_true_eq] at h ⊢
  intro c hc hcn
  subst hcn
  have := h _ hc
  simp [isNameChar, Char.isAlpha, Char.isUpper, Char.isLower] at this

theorem noNL_indent (d : Nat) : (indentChars d).all (fun c => c ≠ '\n') = true := by
  simp only [indentChars, List.all_eq_true, decide_eq_true_eq]
  intro c hc
  rw [List.eq_of_mem_replicate hc]
  decide

theorem noNL_attrChars (as : List (String × String)) (h : as.all attrOkB = true) :
    (attrChars as).all (fun c => c ≠ '\n') = true := by
  induction as with
  | nil => rfl
  | cons p ps ih =>
    simp only [List.all_cons, Bool.and_eq_true, attrOkB, nameOkB] at h
    rw [attrChars_cons]
    simp only [List.all_append, List.all_cons, Bool.and_eq_true, List.cons_append]
    and_intros <;>
      first
        | decide
        | exact noNL_of_name h.1.1.2
        | exact noNL_of_safe h.1.2
        | exact ih h.2

theorem noNL_openLine (n : String) (as : List (String × String))
    (hn : nameOkB n = true) (has : as.all attrOkB = true) :
    (openLineChars n as).all (fun c => c ≠ '\n') = true := by
  simp only [nameOkB, Bool.and_eq_true] at hn
  simp only [openLineChars, List.all_cons, List.all_append, Bool.and_eq_true]
  and_intros <;>
    first
      | decide
      | exact noNL_of_name hn.2
      | exact noNL_attrChars as has

theorem noNL_selfLine (n : String) (as : List (String × String))
    (hn : nameOkB n = true) (has : as.all attrOkB = true) :
    (selfLineChars n as).all (fun c => c ≠ '\n') = true := by
  simp only [nameOkB, Bool.and_eq_true] at hn
  simp only [selfLineChars, List.all_cons, List.all_append, Bool.and_eq_true]
  and_intros <;>
    first
      | decide
      | exact noNL_of_name hn.2
      | exact noNL_attrChars as has

theorem noNL_closeLine (n : String) (hn : nameOkB n = true) :
    (closeLineChars n).all (fun c => c ≠ '\n') = true := by
  simp only [nameOkB, Bool.and_eq_true] at hn
  simp only [closeLineChars, List.all_cons, List.all_append, Bool.and_eq_true]
  and_intros <;>
    first
      | decide
      | exact noNL_of_name hn.2

mutual

theorem noNL_xelemLines : ∀ (d : Nat) (x : XElem), xValid x = true →
    (xelemLines d x).all (fun l => l.all (fun c => c ≠ '\n')) = true
  | d, .el n as [], hx => by
    simp only [xValid, Bool.and_eq_true] at hx
    simp only [xelemLines, List.all_cons, List.all_nil, List.all_append, Bool.and_eq_true,
      Bool.and_true]
    and_intros <;>
      first
        | exact noNL_indent d
        | exact noNL_selfLine n as hx.1.1 hx.1.2
  | d, .el n as (c :: cs), hx => by
    simp only [xValid, Bool.and_eq_true] at hx
    simp only [xelemLines, List.all_cons, List.all_append, List.all_nil, Bool.and_eq_true,
      Bool.and_true]
    and_intros <;>
      first
        | exact noNL_indent d
        | exact noNL_openLine n as hx.1.1 hx.1.2
        | exact noNL_xforestLines (d + 1) (c :: cs) hx.2
        | exact noNL_closeLine n hx.1.1

theorem noNL_xforestLines : ∀ (d : Nat) (xs : List XElem), xForestValid xs = true →
    (xforestLines d xs).all (fun l => l.all (fun c => c ≠ '\n')) = true
  | _, [], _ => rfl
  | d, x :: xs, h => by
    simp only [xForestValid, Bool.and_eq_true] at h
    simp only [xforestLines, List.all_append, Bool.and_eq_true]
    exact ⟨noNL_xelemLines d x h.1, noNL_xforestLines d xs h.2⟩

end

/-! ## The round trip -/

theorem xforestToks_singleton (x : XElem) : xforestToks [x] = xelemToks x := by
  simp [xforestToks]

/-- Modelled from the spec: a well-formed tree — all Tree invariants of §3
and §4.2 hold (the whole-document validation accepts) and its strings fit
in XML attribute values (no `"` or newline; no comma inside a single
`linkTo` id).  Exactly the trees the parser itself can produce. -/
def wellFormedData (pd : ParsedData) : Bool :=
  dataCharsOk pd && (validateData pd).isNone

theorem parseXML_generateXML (pd : ParsedData) (h : wellFormedData pd = true) :
    parseXML (generateXML pd) = Except.ok pd := by
  simp only [wellFormedData, Bool.and_eq_true, Option.isNone_iff_eq_none] at h
  obtain ⟨hchars, hval⟩ := h
  have hxv := xValid_dataToX pd hchars
  have hlines := noNL_xelemLines 0 (dataToX pd) hxv
  have hsplit : splitOnChar '\n' (joinChar '\n' (xmlHeader.data :: xelemLines 0 (dataToX pd)))
      = xmlHeader.data :: xelemLines 0 (dataToX pd) := by
    apply splitOnChar_joinChar
    · simp
    · intro l hl
      rcases List.mem_cons.mp hl with rfl | hmem
      · decide
      · exact List.all_eq_true.mp hlines l hmem
  have htoks := tokenize_xelemLines 0 (dataToX pd) hxv
  have hforest := parseTokForest_inv ((xelemToks (dataToX pd)).length + 1) [dataToX pd] []
    (Or.inl rfl)
    (by rw [xforestToks_singleton]; exact Nat.lt_succ_self _)
  rw [xforestToks_singleton, List.append_nil] at hforest
  have hdata := xForestToData_dataToX pd hchars
  simp [parseXML, generateXML, dataMkChars, hsplit, htoks, hforest, hdata, hval]

/-! ## The Diff Engine

Modelled from the spec: §4.4 (`detectChanges` of `lib/diff/detector.ts`
in the migration plan; the extracted module is not under the repository
source).  The union of the ids of both registries is classified
deterministically into Added / Removed / Modified / Moved records. -/

/-- The registry data of one item that diffing compares: its identity,
title, instance reference, links, and structural parent. -/
structure RegEntry where
  id : String
  title : Option String
  instanceOf : Option String
  linkTo : List String
  parentId : Option String
deriving DecidableEq, Repr

mutual

/-- Registry entries of one item (given its parent id) and its descendants. -/
def itemRegEntries : Option String → DiagramItem → List RegEntry
  | parent, .mk i _ t io lt ch => ⟨i, t, io, lt, parent⟩ :: forestRegEntries (some i) ch

/-- Registry entries of a forest (all items having the given parent id). -/
def forestRegEntries : Option String → List DiagramItem → List RegEntry
  | _, [] => []
  | p, x :: xs => itemRegEntries p x ++ forestRegEntries p xs

end

/-- The registry of a tree: id-keyed entries in document order (root items
have no parent). -/
def buildRegistry (pd : ParsedData) : List RegEntry :=
  forestRegEntries none (omRoots pd) ++ forestRegEntries none (smRoots pd)

/-- Resolve an id in a registry. -/
def lookupReg (r : List RegEntry) (i : String) : Option RegEntry :=
  r.find? (fun e => e.id == i)

/-- Kind of one diff record. -/
inductive ChangeKind where
  | added
  | removed
  | modified
  | moved
deriving DecidableEq, Repr

/-- One diff record: its kind, the affected id, and the old/new registry
entries (carrying the field-level deltas: old/new title, old/new linkTo,
old/new parent). -/
structure Change where
  kind : ChangeKind
  itemId : String
  oldEntry : Option RegEntry
  newEntry : Option RegEntry
deriving DecidableEq, Repr

/-- Classify one id of the union:
Added (absent in old, present in new), Removed (present in old, absent in
new), else Moved when the structural parent differs and/or Modified when
(for non-instances) the title differs or the linkTo list differs.
`instanceOf` changes themselves are not diffed. -/
def classifyId (oldR newR : List RegEntry) (i : String) : List Change :=
  match lookupReg oldR i, lookupReg newR i with
  | none, some n => [⟨.added, i, none, some n⟩]
  | some o, none => [⟨.removed, i, some o, none⟩]
  | some o, some n =>
    (if o.parentId ≠ n.parentId then [⟨.moved, i, some o, some n⟩] else []) ++
    (if (o.instanceOf = none ∧ o.title ≠ n.title) ∨ o.linkTo ≠ n.linkTo then
      [⟨.modified, i, some o, some n⟩] else [])
  | none, none => []

/-- Modelled from the spec: §4.4 `diff` / `detectChanges`.  Classifies
every id of the union of the two registries, old-registry ids first. -/
def detectChanges (oldPd newPd : ParsedData) : List Change :=
  let oldR := buildRegistry oldPd
  let newR := buildRegistry newPd
  let oldIds := oldR.map RegEntry.id
  let newIds := newR.map RegEntry.id
  let ids := oldIds ++ newIds.filter (fun i => !oldIds.contains i)
  ids.flatMap (classifyId oldR newR)

/-- The ids reported as Added, in order. -/
def addedIds : List Change → List String
  | [] => []
  | c :: cs => if c.kind = ChangeKind.added then c.itemId :: addedIds cs else addedIds cs

/-- The ids reported as Removed, in order. -/
def removedIds : List Change → List String
  | [] => []
  | c :: cs => if c.kind = ChangeKind.removed then c.itemId :: removedIds cs else removedIds cs

theorem addedIds_append (a b : List Change) :
    addedIds (a ++ b) = addedIds a ++ addedIds b := by
  induction a with
  | nil => rfl
  | cons c cs ih => by_cases h : c.kind = ChangeKind.added <;> simp [addedIds, h, ih]

theorem removedIds_append (a b : List Change) :
    removedIds (a ++ b) = removedIds a ++ removedIds b := by
  induction a with
  | nil => rfl
  | cons c cs ih => by_cases h : c.kind = ChangeKind.removed <;> simp [removedIds, h, ih]

theorem flatMap_nil_of {α β : Type} (l : List α) (f : α → List β)
    (h : ∀ x ∈ l, f x = []) : l.flatMap f = [] := by
  induction l with
  | nil => rfl
  | cons x xs ih =>
    simp [List.flatMap_cons, h x (by simp), ih (fun y hy => h y (List.mem_cons_of_mem _ hy))]

theorem lookupReg_isSome_of_mem {r : List RegEntry} {i : String}
    (h : i ∈ r.map RegEntry.id) : (lookupReg r i).isSome = true := by
  rw [lookupReg, List.find?_isSome]
  simp only [List.mem_map] at h
  obtain ⟨e, he, rfl⟩ := h
  exact ⟨e, he, by simp⟩

theorem lookupReg_eq_none_of_not_mem {r : List RegEntry} {i : String}
    (h : ¬ i ∈ r.map RegEntry.id) : lookupReg r i = none := by
  rw [lookupReg, List.find?_eq_none]
  intro e he
  simp only [beq_iff_eq]
  intro hid
  exact h (List.mem_map.mpr ⟨e, he, hid⟩)

theorem addedIds_classify_oldSome (oldR newR : List RegEntry) (i : String)
    (ho : (lookupReg oldR i).isSome = true) :
    addedIds (classifyId oldR newR i) = [] := by
  rcases hos : lookupReg oldR i with _ | o
  · rw [hos] at ho; simp at ho
  · cases hn : lookupReg newR i with
    | none => simp [classifyId, hos, hn, addedIds]
    | some n =>
      simp only [classifyId, hos, hn]
      rw [addedIds_append]
      split_ifs <;> simp_all [addedIds]

theorem removedIds_classify_oldNone (oldR newR : List RegEntry) (i : String)
    (ho : lookupReg oldR i = none) :
    removedIds (classifyId oldR newR i) = [] := by
  cases hn : lookupReg newR i with
  | none => simp [classifyId, ho, hn, removedIds]
  | some n => simp [classifyId, ho, hn, removedIds]

theorem addedIds_classify_oldNone_newSome (oldR newR : List RegEntry) (i : String)
    (ho : lookupReg oldR i = none) (hn : (lookupReg newR i).isSome = true) :
    addedIds (classifyId oldR newR i) = [i] := by
  rcases hns : lookupReg newR i with _ | n
  · rw [hns] at hn; simp at hn
  · simp [classifyId, ho, hns, addedIds]

theorem removedIds_classify_oldSome (oldR newR : List RegEntry) (i : String)
    (ho : (lookupReg oldR i).isSome = true) :
    removedIds (classifyId oldR newR i) =
      if lookupReg newR i = none then [i] else [] := by
  rcases hos : lookupReg oldR i with _ | o
  · rw [hos] at ho; simp at ho
  · cases hn : lookupReg newR i with
    | none => simp [classifyId, hos, hn, removedIds]
    | some n =>
      simp only [classifyId, hos, hn]
      rw [removedIds_append]
      split_ifs <;> simp_all [removedIds]

theorem addedIds_flatMap_nil (l : List String) (f : String → List Change)
    (h : ∀ x ∈ l, addedIds (f x) = []) : addedIds (l.flatMap f) = [] := by
  induction l with
  | nil => rfl
  | cons x xs ih =>
    rw [List.flatMap_cons, addedIds_append, h x (by simp),
      ih (fun y hy => h y (List.mem_cons_of_mem _ hy))]
    rfl

theorem removedIds_flatMap_nil (l : List String) (f : String → List Change)
    (h : ∀ x ∈ l, removedIds (f x) = []) : removedIds (l.flatMap f) = [] := by
  induction l with
  | nil => rfl
  | cons x xs ih =>
    rw [List.flatMap_cons, removedIds_append, h x (by simp),
      ih (fun y hy => h y (List.mem_cons_of_mem _ hy))]
    rfl

theorem addedIds_flatMap_singleton (l : List String) (f : String → List Change)
    (h : ∀ x ∈ l, addedIds (f x) = [x]) : addedIds (l.flatMap f) = l := by
  induction l with
  | nil => rfl
  | cons x xs ih =>
    rw [List.flatMap_cons, addedIds_append, h x (by simp),
      ih (fun y hy => h y (List.mem_cons_of_mem _ hy))]
    rfl

theorem removedIds_flatMap_ite (l : List String) (f : String → List Change) (p : String → Bool)
    (h : ∀ x ∈ l, removedIds (f x) = if p x then [x] else []) :
    removedIds (l.flatMap f) = l.filter p := by
  induction l with
  | nil => rfl
  | cons x xs ih =>
    rw [List.flatMap_cons, removedIds_append, h x (by simp),
      ih (fun y hy => h y (List.mem_cons_of_mem _ hy)), List.filter_cons]
    by_cases hp : p x = true
    · simp [hp]
    · simp [hp]

theorem addedIds_detectChanges (A B : ParsedData) :
    addedIds (detectChanges A B) =
      ((buildRegistry B).map RegEntry.id).filter
        (fun i => !((buildRegistry A).map RegEntry.id).contains i) := by
  simp only [detectChanges]
  rw [List.flatMap_append, addedIds_append]
  rw [addedIds_flatMap_nil _ _ (fun i hi =>
    addedIds_classify_oldSome _ _ i (lookupReg_isSome_of_mem hi)), List.nil_append]
  apply addedIds_flatMap_singleton
  intro i hi
  have hmem := List.mem_filter.mp hi
  have hnotA : ¬ i ∈ (buildRegistry A).map RegEntry.id := by
    intro hm
    have hc : ((buildRegistry A).map RegEntry.id).contains i = true := List.elem_iff.mpr hm
    have h2 := hmem.2
    rw [hc] at h2
    simp at h2
  exact addedIds_classify_oldNone_newSome _ _ i
    (lookupReg_eq_none_of_not_mem hnotA) (lookupReg_isSome_of_mem hmem.1)

theorem removedIds_detectChanges (A B : ParsedData) :
    removedIds (detectChanges A B) =
      ((buildRegistry A).map RegEntry.id).filter
        (fun i => !((buildRegistry B).map RegEntry.id).contains i) := by
  simp only [detectChanges]
  rw [List.flatMap_append, removedIds_append]
  rw [removedIds_flatMap_nil
    (((buildRegistry B).map RegEntry.id).filter
      (fun i => !((buildRegistry A).map RegEntry.id).contains i))
    _ (fun i hi => by
      have hmem := List.mem_filter.mp hi
      have hnotA : ¬ i ∈ (buildRegistry A).map RegEntry.id := by
        intro hm
        have hc : ((buildRegistry A).map RegEntry.id).contains i = true := List.elem_iff.mpr hm
        have h2 := hmem.2
        rw [hc] at h2
        simp at h2
      exact removedIds_classify_oldNone _ _ i (lookupReg_eq_none_of_not_mem hnotA)),
    List.append_nil]
  apply removedIds_flatMap_ite
  intro i hi
  rw [removedIds_classify_oldSome _ _ i (lookupReg_isSome_of_mem hi)]
  by_cases hm : i ∈ (buildRegistry B).map RegEntry.id
  · have hs := lookupReg_isSome_of_mem hm
    have hc : ((buildRegistry B).map RegEntry.id).contains i = true := List.elem_iff.mpr hm
    rw [if_neg (fun he => by rw [he] at hs; simp at hs), if_neg (by rw [hc]; decide)]
  · have hc : ((buildRegistry B).map RegEntry.id).contains i = false :=
      Bool.eq_false_iff.mpr (fun h => hm (List.elem_iff.mp h))
    rw [if_pos (lookupReg_eq_none_of_not_mem hm), if_pos (by rw [hc]; decide)]

theorem detectChanges_self (A : ParsedData) : detectChanges A A = [] := by
  simp only [detectChanges]
  have hfilter : ((buildRegistry A).map RegEntry.id).filter
      (fun i => !((buildRegistry A).map RegEntry.id).contains i) = [] := by
    rw [List.filter_eq_nil_iff]
    intro a ha
    have hc : ((buildRegistry A).map RegEntry.id).contains a = true := List.elem_iff.mpr ha
    simp only [hc, Bool.not_true]
    exact fun h => by simp at h
  rw [hfilter, List.append_nil]
  apply flatMap_nil_of
  intro i hi
  cases h : lookupReg (buildRegistry A) i with
  | none => simp [classifyId, h]
  | some o => simp [classifyId, h]

/-! ## The mutation API

Modelled from the spec: §6 — the mutation API operates on a live tree,
re-validates nesting-depth and id-uniqueness (and link) invariants on
every call and rejects invalid operations before they reach the tree;
§7 — rejection raises a `MutationError` and leaves the tree unchanged. -/

/-- Modelled from the spec: §7 `MutationError` taxonomy. -/
inductive MutationError where
  | nestingDepthExceeded
  | duplicateId
  | danglingLinkTarget
  | crossMapLink
deriving DecidableEq, Repr

mutual

/-- Append `c` to the children of the item with id `pid`, if present here. -/
def insertInItem (pid : String) (c : DiagramItem) : DiagramItem → DiagramItem
  | .mk i k t io lt ch =>
    if i = pid then .mk i k t io lt (ch ++ [c])
    else .mk i k t io lt (insertInForest pid c ch)

/-- Append `c` to the children of the item with id `pid` in a forest. -/
def insertInForest (pid : String) (c : DiagramItem) : List DiagramItem → List DiagramItem
  | [] => []
  | x :: xs => insertInItem pid c x :: insertInForest pid c xs

end

/-- The tree after inserting `c` under the item with id `pid`. -/
def insertCandidate (pid : String) (c : DiagramItem) (pd : ParsedData) : ParsedData :=
  ⟨pd.objectMap.map (insertInForest pid c), pd.siteMap.map (insertInForest pid c)⟩

/-- Remove every item with id `did` (together with its subtree) from a forest. -/
def removeFromForest (did : String) : List DiagramItem → List DiagramItem
  | [] => []
  | .mk i k t io lt ch :: xs =>
    if i = did then removeFromForest did xs
    else .mk i k t io lt (removeFromForest did ch) :: removeFromForest did xs

/-- Retitle the item with id `tid` in a forest. -/
def retitleForest (tid : String) (s : String) : List DiagramItem → List DiagramItem
  | [] => []
  | .mk i k t io lt ch :: xs =>
    .mk i k (if i = tid then some s else t) io lt (retitleForest tid s ch) ::
      retitleForest tid s xs

/-- Find the item with id `fid` in a forest. -/
def findInForest (fid : String) : List DiagramItem → Option DiagramItem
  | [] => none
  | .mk i k t io lt ch :: xs =>
    if i = fid then some (.mk i k t io lt ch)
    else
      match findInForest fid ch with
      | some r => some r
      | none => findInForest fid xs

/-- Find the item with id `fid` anywhere in the tree. -/
def findItem (fid : String) (pd : ParsedData) : Option DiagramItem :=
  match findInForest fid (omRoots pd) with
  | some r => some r
  | none => findInForest fid (smRoots pd)

/-- Modelled from the spec: §6 mutation API operations
(insert / delete / move / edit). -/
inductive Mutation where
  | insertItem (parentId : String) (item : DiagramItem)
  | deleteItem (id : String)
  | moveItem (id : String) (newParentId : String)
  | editTitle (id : String) (newTitle : String)

/-- The candidate tree a mutation proposes (before re-validation). -/
def candidateTree : Mutation → ParsedData → ParsedData
  | .insertItem pid c, pd => insertCandidate pid c pd
  | .deleteItem did, pd =>
    ⟨pd.objectMap.map (removeFromForest did), pd.siteMap.map (removeFromForest did)⟩
  | .moveItem mid npid, pd =>
    match findItem mid pd with
    | none => pd
    | some it =>
      insertCandidate npid it
        ⟨pd.objectMap.map (removeFromForest mid), pd.siteMap.map (removeFromForest mid)⟩
  | .editTitle tid s, pd =>
    ⟨pd.objectMap.map (retitleForest tid s), pd.siteMap.map (retitleForest tid s)⟩

/-- Modelled from the spec: the invariants the mutation API re-validates on
every call, reported in the order of the `MutationError` taxonomy: nesting
depth, id uniqueness, link-target existence, link same-map. -/
def checkMutation (pd : ParsedData) : Option MutationError :=
  if ¬ (omStructureOk pd && smStructureOk pd) then some .nestingDepthExceeded
  else if ¬ nodupB (idsOf (allItems pd)) then some .duplicateId
  else if ¬ (allItems pd).all
      (fun i => i.linkTo.all (fun l => (idsOf (allItems pd)).contains l)) then
    some .danglingLinkTarget
  else if ¬ linksOkB pd then some .crossMapLink
  else none

/-- Modelled from the spec: §6 mutation API — builds the candidate tree,
re-validates, and rejects synchronously with the first violated rule. -/
def applyMutation (m : Mutation) (pd : ParsedData) : Except MutationError ParsedData :=
  match checkMutation (candidateTree m pd) with
  | some e => .error e
  | none => .ok (candidateTree m pd)

/-- The session tree after a mutation: the candidate on success, the
unchanged tree on rejection (mutation is all-or-nothing). -/
def applyMutationState (m : Mutation) (pd : ParsedData) : ParsedData :=
  match applyMutation m pd with
  | .ok pd2 => pd2
  | .error _ => pd

/-- The Object Map nesting invariant of the claim: every NL1I item of the
Object Map has an empty children list. -/
def omNestingInv (pd : ParsedData) : Bool :=
  (omNestedItems pd).all (fun i => i.children.isEmpty)

theorem all_and_right {α : Type} {p q : α → Bool} {l : List α}
    (h : l.all (fun x => p x && q x) = true) : l.all q = true := by
  simp only [List.all_eq_true, Bool.and_eq_true] at h ⊢
  exact fun x hx => (h x hx).2

theorem checkMutation_none_omStructure {pd : ParsedData}
    (h : checkMutation pd = none) : omStructureOk pd = true := by
  unfold checkMutation at h
  split_ifs at h with h1 h2 h3 h4
  simp only [not_not, Bool.and_eq_true] at h1
  exact h1.1

theorem omStructureOk_nestingInv {pd : ParsedData}
    (h : omStructureOk pd = true) : omNestingInv pd = true := by
  simp only [omStructureOk, Bool.and_eq_true] at h
  exact all_and_right h.2

theorem applyMutation_ok_nestingInv {m : Mutation} {pd pd2 : ParsedData}
    (h : applyMutation m pd = .ok pd2) : omNestingInv pd2 = true := by
  unfold applyMutation at h
  split at h
  · exact Except.noConfusion h
  next hchk =>
    simp only [Except.ok.injEq] at h
    subst h
    exact omStructureOk_nestingInv (checkMutation_none_omStructure hchk)

theorem parseXML_ok_validate {s : String} {pd : ParsedData}
    (h : parseXML s = Except.ok pd) : validateData pd = none := by
  unfold parseXML at h
  repeat' split at h
  all_goals try exact Except.noConfusion h
  next heq =>
    simp only [Except.ok.injEq] at h
    subst h
    exact heq

/-! ## Unbounded nesting in the Site Map -/

/-- The id used at depth `k` of the deep chain: `k + 1` copies of `c`. -/
def chainId (k : Nat) : String := String.mk (List.replicate (k + 1) 'c')

/-- An Info chain of `n + 1` items starting at depth `d`, each the only
child of the previous one. -/
def siteChain : Nat → Nat → DiagramItem
  | d, 0 => .mk (chainId d) .info (some "t") none [] []
  | d, n + 1 => .mk (chainId d) .info (some "t") none [] [siteChain (d + 1) n]

/-- A tree whose Site Map contains one Page with an `n + 1`-deep Info chain. -/
def siteChainTree (n : Nat) : ParsedData :=
  ⟨[], [[.mk "p" .page (some "P") none [] [siteChain 1 n]]]⟩

mutual

/-- Nesting depth of an item (1 for a leaf). -/
def itemDepth : DiagramItem → Nat
  | .mk _ _ _ _ _ ch => 1 + forestDepth ch

/-- Nesting depth of a forest (0 for an empty one). -/
def forestDepth : List DiagramItem → Nat
  | [] => 0
  | x :: xs => max (itemDepth x) (forestDepth xs)

end

theorem itemDepth_siteChain (d n : Nat) : itemDepth (siteChain d n) = n + 1 := by
  induction n generalizing d with
  | zero => rfl
  | succ k ih =>
    simp only [siteChain, itemDepth, forestDepth, ih (d + 1)]
    omega

theorem nodupB_iff (l : List String) : nodupB l = true ↔ l.Nodup := by
  induction l with
  | nil => simp [nodupB]
  | cons x xs ih =>
    simp only [nodupB, Bool.and_eq_true, Bool.not_eq_true', List.nodup_cons, ih]
    constructor
    · rintro ⟨h1, h2⟩
      refine ⟨fun hm => ?_, h2⟩
      have hc : xs.contains x = true := List.elem_iff.mpr hm
      rw [hc] at h1
      exact Bool.noConfusion h1
    · rintro ⟨h1, h2⟩
      exact ⟨Bool.eq_false_iff.mpr (fun hc => h1 (List.elem_iff.mp hc)), h2⟩

theorem all_imp {α : Type} {p q : α → Bool} (l : List α)
    (h : l.all p = true) (himp : ∀ x, p x = true → q x = true) : l.all q = true := by
  simp only [List.all_eq_true] at h ⊢
  exact fun x hx => himp x (h x hx)

theorem all_of_isEmpty {α : Type} {l : List α} (h : l.isEmpty = true) (f : α → Bool) :
    l.all f = true := by
  cases l with
  | nil => rfl
  | cons a t => simp [List.isEmpty] at h

theorem chain_props (n d : Nat) :
    (itemItems (siteChain d n)).all
      (fun i => titleRuleB i && i.instanceOf.isNone && i.kind.isNL1I &&
        i.children.all (fun c => c.kind.isNL1I) && i.linkTo.isEmpty) = true := by
  induction n generalizing d with
  | zero => rfl
  | succ k ih =>
    have hsub := ih (d + 1)
    simp only [siteChain, itemItems, forestItems, List.all_cons, List.all_append,
      List.append_nil, Bool.and_eq_true, List.all_nil, Bool.and_true] at hsub ⊢
    have hkind : ∀ a b, (siteChain a b).kind = ItemKind.info := by
      intro a b
      cases b <;> rfl
    refine ⟨⟨⟨⟨⟨?_, ?_⟩, ?_⟩, ?_⟩, ?_⟩, hsub⟩
    · rfl
    · rfl
    · rfl
    · rw [show (DiagramItem.mk (chainId d) ItemKind.info (some "t") none []
          [siteChain (d + 1) k]).children = [siteChain (d + 1) k] from rfl]
      simp only [List.all_cons, List.all_nil, Bool.and_true]
      rw [hkind (d + 1) k]
      rfl
    · rfl

theorem chainId_inj {a b : Nat} (h : chainId a = chainId b) : a = b := by
  have := congrArg (fun s => s.data.length) h
  simpa [chainId, dataMkChars] using this

theorem chainId_ne_p (k : Nat) : chainId k ≠ "p" := by
  cases k with
  | zero => decide
  | succ m =>
    intro h
    have h2 := congrArg (fun s => s.data.length) h
    simp only [chainId, dataMkChars, List.length_replicate] at h2
    have h3 : ("p".data).length = 1 := rfl
    rw [h3] at h2
    omega

theorem chain_ids (n d : Nat) :
    idsOf (itemItems (siteChain d n)) = (List.range (n + 1)).map (fun j => chainId (d + j)) := by
  induction n generalizing d with
  | zero => simp [siteChain, itemItems, forestItems, idsOf, DiagramItem.id, List.range_succ]
  | succ k ih =>
    have hsub := ih (d + 1)
    simp only [siteChain, itemItems, forestItems, idsOf, List.map_cons, List.map_append,
      List.append_nil, DiagramItem.id, List.map_nil] at hsub ⊢
    rw [hsub]
    have hrhs : (List.range (k + 1 + 1)).map (fun j => chainId (d + j))
        = chainId d :: (List.range (k + 1)).map (fun j => chainId (d + 1 + j)) := by
      rw [List.range_succ_eq_map, List.map_cons, List.map_map]
      refine List.cons_eq_cons.mpr ⟨by simp, ?_⟩
      apply List.map_congr_left
      intro j _
      simp only [Function.comp_apply]
      congr 1
      omega
    rw [hrhs]

theorem omItems_siteChainTree (n : Nat) : omItems (siteChainTree n) = [] := rfl

theorem smItems_siteChainTree (n : Nat) :
    smItems (siteChainTree n) =
      DiagramItem.mk "p" ItemKind.page (some "P") none [] [siteChain 1 n]
        :: itemItems (siteChain 1 n) := by
  simp [smItems, smRoots, siteChainTree, forestItems, itemItems]

theorem allItems_siteChainTree (n : Nat) :
    allItems (siteChainTree n) =
      DiagramItem.mk "p" ItemKind.page (some "P") none [] [siteChain 1 n]
        :: itemItems (siteChain 1 n) := by
  show omItems _ ++ smItems _ = _
  rw [omItems_siteChainTree, smItems_siteChainTree, List.nil_append]

theorem smNested_siteChainTree (n : Nat) :
    smNestedItems (siteChainTree n) = itemItems (siteChain 1 n) := by
  simp [smNestedItems, smRoots, siteChainTree, forestItems, DiagramItem.children]

theorem validateData_siteChainTree (n : Nat) : validateData (siteChainTree n) = none := by
  have hprops := chain_props n 1
  have hmem : ∀ x ∈ itemItems (siteChain 1 n),
      titleRuleB x = true ∧ x.instanceOf = none ∧ x.kind.isNL1I = true ∧ x.linkTo = [] := by
    intro x hx
    have hx2 := List.all_eq_true.mp hprops x hx
    simp only [Bool.and_eq_true] at hx2
    obtain ⟨⟨⟨⟨h1, h2⟩, h3⟩, h4⟩, h5⟩ := hx2
    refine ⟨h1, ?_, h3, ?_⟩
    · cases hio : x.instanceOf with
      | none => rfl
      | some v => rw [hio] at h2; simp [Option.isNone] at h2
    · cases hlt : x.linkTo with
      | nil => rfl
      | cons a t => rw [hlt] at h5; simp [List.isEmpty] at h5
  rw [validateData_eq_none]
  have hall := allItems_siteChainTree n
  refine ⟨?_, ?_, ?_, ?_, ?_, ?_⟩
  · rw [hall]
    rw [show idsOf (DiagramItem.mk "p" ItemKind.page (some "P") none [] [siteChain 1 n]
        :: itemItems (siteChain 1 n)) = "p" :: idsOf (itemItems (siteChain 1 n)) from rfl]
    rw [nodupB_iff, chain_ids n 1, List.nodup_cons]
    constructor
    · intro hm
      obtain ⟨j, _, hj⟩ := List.mem_map.mp hm
      exact chainId_ne_p (1 + j) hj
    · exact List.Nodup.map (fun a b hab => by have := chainId_inj hab; omega)
        (List.nodup_range _)
  · rw [hall]
    simp only [List.all_cons, Bool.and_eq_true]
    exact ⟨rfl, List.all_eq_true.mpr (fun x hx => (hmem x hx).1)⟩
  · rfl
  · have h1 : (smRoots (siteChainTree n)).all (fun r => r.kind == ItemKind.page) = true := rfl
    have h2 : (smNestedItems (siteChainTree n)).all (fun i => i.kind.isNL1I) = true := by
      rw [smNested_siteChainTree]
      exact List.all_eq_true.mpr (fun x hx => (hmem x hx).2.2.1)
    simp [smStructureOk, h1, h2]
  · simp only [instanceRefsOkB]
    rw [hall]
    simp only [List.all_cons, Bool.and_eq_true]
    refine ⟨rfl, List.all_eq_true.mpr (fun x hx => ?_)⟩
    simp [(hmem x hx).2.1]
  · simp only [linksOkB, Bool.and_eq_true]
    refine ⟨rfl, ?_⟩
    rw [smItems_siteChainTree]
    simp only [List.all_cons, Bool.and_eq_true]
    refine ⟨rfl, List.all_eq_true.mpr (fun x hx => ?_)⟩
    rw [(hmem x hx).2.2.2]
    rfl

/-! ## Inserting below an Object Map NL1I item exceeds the nesting depth -/

theorem insertInForest_eq_map (pid : String) (c : DiagramItem) (xs : List DiagramItem) :
    insertInForest pid c xs = xs.map (insertInItem pid c) := by
  induction xs with
  | nil => rfl
  | cons x t ih => simp [insertInForest, ih]

theorem omRoots_insertCandidate (pid : String) (c : DiagramItem) (pd : ParsedData) :
    omRoots (insertCandidate pid c pd) = (omRoots pd).map (insertInItem pid c) := by
  simp only [omRoots, insertCandidate]
  rw [show (pd.objectMap.map (insertInForest pid c))
      = pd.objectMap.map (fun col => col.map (insertInItem pid c)) from by
    apply List.map_congr_left
    intro col _
    exact insertInForest_eq_map pid c col]
  exact (List.map_flatten (insertInItem pid c) pd.objectMap).symm

theorem idsOf_append (a b : List DiagramItem) : idsOf (a ++ b) = idsOf a ++ idsOf b := by
  simp [idsOf]

mutual

theorem insertInItem_creates : ∀ (pid : String) (c : DiagramItem) (x : DiagramItem),
    pid ∈ idsOf (itemItems x) →
    ∃ j ∈ itemItems (insertInItem pid c x), j.id = pid ∧ j.children ≠ []
  | pid, c, .mk i k t io lt ch, hmem => by
    by_cases hip : i = pid
    · subst hip
      refine ⟨.mk i k t io lt (ch ++ [c]), ?_, rfl, by simp [DiagramItem.children]⟩
      rw [show insertInItem i c (.mk i k t io lt ch) = .mk i k t io lt (ch ++ [c]) from by
        simp [insertInItem]]
      rw [itemItems]
      exact List.mem_cons_self _ _
    · have hmem' : pid ∈ idsOf (forestItems ch) := by
        rw [itemItems] at hmem
        rw [show idsOf (DiagramItem.mk i k t io lt ch :: forestItems ch)
            = i :: idsOf (forestItems ch) from rfl] at hmem
        rcases List.mem_cons.mp hmem with h | h
        · exact absurd h.symm hip
        · exact h
      obtain ⟨j, hj, hjp⟩ := insertInForest_creates pid c ch hmem'
      refine ⟨j, ?_, hjp⟩
      rw [show insertInItem pid c (.mk i k t io lt ch)
          = .mk i k t io lt (insertInForest pid c ch) from by simp [insertInItem, hip]]
      rw [itemItems]
      exact List.mem_cons_of_mem _ hj

theorem insertInForest_creates : ∀ (pid : String) (c : DiagramItem) (xs : List DiagramItem),
    pid ∈ idsOf (forestItems xs) →
    ∃ j ∈ forestItems (insertInForest pid c xs), j.id = pid ∧ j.children ≠ []
  | pid, c, [], hmem => by simp [forestItems, idsOf] at hmem
  | pid, c, x :: xs, hmem => by
    rw [forestItems, idsOf_append] at hmem
    rw [insertInForest, forestItems]
    rcases List.mem_append.mp hmem with h | h
    · obtain ⟨j, hj, hjp⟩ := insertInItem_creates pid c x h
      exact ⟨j, List.mem_append_left _ hj, hjp⟩
    · obtain ⟨j, hj, hjp⟩ := insertInForest_creates pid c xs h
      exact ⟨j, List.mem_append_right _ hj, hjp⟩

end

theorem forestItems_split {r : DiagramItem} {roots : List DiagramItem} (hr : r ∈ roots) :
    ∃ pre post, forestItems roots = pre ++ (itemItems r ++ post) := by
  induction roots with
  | nil => exact absurd hr (List.not_mem_nil r)
  | cons x xs ih =>
    rcases List.mem_cons.mp hr with h | h
    · subst h
      exact ⟨[], forestItems xs, by rw [forestItems, List.nil_append]⟩
    · obtain ⟨pre, post, hpp⟩ := ih h
      exact ⟨itemItems x ++ pre, post, by rw [forestItems, hpp, List.append_assoc]⟩

/-- In a tree with globally unique ids, a root's id differs from every id
nested below any root. -/
theorem root_id_ne_nested {pd : ParsedData} {r : DiagramItem} {pid : String}
    (hnodup : nodupB (idsOf (allItems pd)) = true)
    (hr : r ∈ omRoots pd) (hpid : pid ∈ idsOf (forestItems r.children)) :
    r.id ≠ pid := by
  have hnd : (idsOf (allItems pd)).Nodup := (nodupB_iff _).mp hnodup
  rw [show allItems pd = omItems pd ++ smItems pd from rfl, idsOf_append] at hnd
  have hom : (idsOf (omItems pd)).Nodup := hnd.of_append_left
  obtain ⟨pre, post, hpp⟩ := forestItems_split hr
  rw [show omItems pd = forestItems (omRoots pd) from rfl, hpp, idsOf_append, idsOf_append]
    at hom
  have hmid : (idsOf (itemItems r)).Nodup := hom.of_append_right.of_append_left
  rcases r with ⟨ri, rk, rt, rio, rlt, rch⟩
  rw [itemItems] at hmid
  rw [show idsOf (DiagramItem.mk ri rk rt rio rlt rch :: forestItems rch)
      = ri :: idsOf (forestItems rch) from rfl] at hmid
  have hnotin := (List.nodup_cons.mp hmid).1
  intro hEq
  apply hnotin
  rw [show (DiagramItem.mk ri rk rt rio rlt rch).id = ri from rfl] at hEq
  rw [show (DiagramItem.mk ri rk rt rio rlt rch).children = rch from rfl] at hpid
  rw [hEq]
  exact hpid

theorem insert_under_omNested_rejected (pd : ParsedData) (pid : String) (c : DiagramItem)
    (hvalid : validateData pd = none) (hpid : pid ∈ idsOf (omNestedItems pd)) :
    applyMutation (.insertItem pid c) pd = .error .nestingDepthExceeded ∧
    applyMutationState (.insertItem pid c) pd = pd := by
  have hnodup := ((validateData_eq_none pd).mp hvalid).1
  obtain ⟨r, hr, hmemch⟩ : ∃ r ∈ omRoots pd, pid ∈ idsOf (forestItems r.children) := by
    simp only [omNestedItems, idsOf, List.mem_map, List.mem_flatMap] at hpid
    obtain ⟨item, ⟨r, hr, hitem⟩, hid⟩ := hpid
    exact ⟨r, hr, List.mem_map.mpr ⟨item, hitem, hid⟩⟩
  have hrne : r.id ≠ pid := root_id_ne_nested hnodup hr hmemch
  have hjex : ∃ j ∈ omNestedItems (insertCandidate pid c pd), j.children ≠ [] := by
    obtain ⟨j, hj, hjid, hjch⟩ := insertInForest_creates pid c r.children hmemch
    refine ⟨j, ?_, hjch⟩
    rw [omNestedItems, omRoots_insertCandidate]
    apply List.mem_flatMap.mpr
    refine ⟨insertInItem pid c r, List.mem_map.mpr ⟨r, hr, rfl⟩, ?_⟩
    rcases r with ⟨ri, rk, rt, rio, rlt, rch⟩
    rw [show (DiagramItem.mk ri rk rt rio rlt rch).id = ri from rfl] at hrne
    rw [show insertInItem pid c (.mk ri rk rt rio rlt rch)
        = .mk ri rk rt rio rlt (insertInForest pid c rch) from by simp [insertInItem, hrne]]
    rw [show (DiagramItem.mk ri rk rt rio rlt (insertInForest pid c rch)).children
        = insertInForest pid c rch from rfl]
    rw [show (DiagramItem.mk ri rk rt rio rlt rch).children = rch from rfl] at hj
    exact hj
  have homfalse : omStructureOk (insertCandidate pid c pd) = false := by
    obtain ⟨j, hj, hjc⟩ := hjex
    apply Bool.eq_false_iff.mpr
    intro htrue
    simp only [omStructureOk, Bool.and_eq_true] at htrue
    have hja := List.all_eq_true.mp htrue.2 j hj
    simp only [Bool.and_eq_true] at hja
    exact hjc (List.isEmpty_iff.mp hja.2)
  have hcheck : checkMutation (insertCandidate pid c pd) = some .nestingDepthExceeded := by
    unfold checkMutation
    rw [if_pos (by rw [homfalse]; simp)]
  refine ⟨?_, ?_⟩
  · simp [applyMutation, candidateTree, hcheck]
  · simp [applyMutationState, applyMutation, candidateTree, hcheck]

/-! ## The persistence schema

Embedded from the repository source: `types/database.ts` (row types) and
the SQL schema document (tables, CHECK/UNIQUE constraints, RLS policies,
`get_next_version_number`, `user_can_edit_project`). -/

/-- Row of `profiles` (from `types/database.ts`). -/
structure Profile where
  id : String
  email : String
  full_name : Option String
  avatar_url : Option String
  created_at : String
  updated_at : String
deriving DecidableEq, Repr

/-- Row of `projects` (from `types/database.ts`). -/
structure Project where
  id : String
  owner_id : String
  name : String
  description : Option String
  xml : String
  is_public : Bool
  last_edited_by : Option String
  last_edited_at : Option String
  created_at : String
  updated_at : String
deriving DecidableEq, Repr

/-- Row of `versions` (from `types/database.ts`). -/
structure Version where
  id : String
  project_id : String
  name : String
  description : Option String
  xml : String
  version_number : Int
  created_by : String
  created_at : String
deriving DecidableEq, Repr

/-- The `permission` column: `CHECK (permission IN ('view', 'edit'))`. -/
inductive Permission where
  | view
  | edit
deriving DecidableEq, Repr

/-- Row of `project_sharing` (from `types/database.ts`); `accepted_at` is
`NULL` while the invitation is pending. -/
structure ProjectSharing where
  id : String
  project_id : String
  user_id : String
  permission : Permission
  invited_by : String
  invited_at : String
  accepted_at : Option String
deriving DecidableEq, Repr

/-- The prefix of the `xml_valid_format` CHECK pattern
`xml LIKE '<?xml version="1.0"%'`. -/
def xmlCheckPattern : String := "<?xml version=\"1.0\""

/-- CHECK `xml_valid_format`: the stored xml starts with the header prefix. -/
def xml_valid_format (xml : String) : Bool :=
  List.isPrefixOf xmlCheckPattern.data xml.data

/-- CHECK `name_not_empty`: `LENGTH(TRIM(name)) > 0` — some non-space
character remains after trimming. -/
def name_not_empty (name : String) : Bool :=
  name.data.any (fun c => !(c = ' '))

/-- The `projects.xml` column DEFAULT: the empty document skeleton, exactly
as written in the schema. -/
def defaultProjectXml : String :=
  "<?xml version=\"1.0\" encoding=\"UTF-8\"?>\n<xml>\n  <Diagram>\n    <ObjectMap>\n    </ObjectMap>\n    <SiteMap>\n    </SiteMap>\n  </Diagram>\n</xml>"

/-- SQL `MAX` aggregate over integers: `NULL` on the empty relation. -/
def sqlMaxInt : List Int → Option Int
  | [] => none
  | x :: xs => some (xs.foldl max x)

/-- Embedded from the source SQL function `get_next_version_number`:
`SELECT COALESCE(MAX(version_number), 0) + 1 FROM versions
WHERE project_id = p_project_id`. -/
def get_next_version_number (versions : List Version) (p_project_id : String) : Int :=
  (sqlMaxInt ((versions.filter (fun v => v.project_id = p_project_id)).map
    (fun v => v.version_number))).getD 0 + 1

/-- Embedded from the source SQL function `user_can_edit_project`: the user
owns the project, or holds an accepted `project_sharing` row with
`permission = 'edit'` for it. -/
def user_can_edit_project (projects : List Project)
    (project_sharing : List ProjectSharing) (p_user_id p_project_id : String) : Bool :=
  projects.any (fun p => p.id = p_project_id && p.owner_id = p_user_id) ||
  project_sharing.any (fun s =>
    s.project_id = p_project_id && s.user_id = p_user_id &&
    s.permission == Permission.edit && s.accepted_at.isSome)

/-- CONSTRAINT `unique_version_number UNIQUE (project_id, version_number)`:
no later row repeats an earlier row's (project, number) pair. -/
def pairwiseUniqueVersion : List Version → Bool
  | [] => true
  | v :: vs =>
    vs.all (fun w => !(w.project_id = v.project_id && w.version_number = v.version_number)) &&
    pairwiseUniqueVersion vs

/-- The authorization-relevant database state: the three mutable tables. -/
structure DBState where
  projects : List Project
  versions : List Version
  project_sharing : List ProjectSharing
deriving DecidableEq, Repr

/-- The acting user owns the project (RLS `owner_id = auth.uid()`). -/
def isOwner (s : DBState) (u pid : String) : Bool :=
  s.projects.any (fun p => p.id = pid && p.owner_id = u)

/-- The operations the schema's RLS policies govern, as issued by an
authenticated user.  Timestamps (`NOW()`) are passed in by the caller. -/
inductive DBOp where
  | insertProject (id owner name : String) (description : Option String)
      (xml : Option String) (ts : String)
  | updateProjectXml (pid newXml ts : String)
  | deleteProject (pid : String)
  | insertVersion (v : Version)
  | updateVersion (vid newXml : String)
  | deleteVersion (vid : String)
  | insertSharing (sh : ProjectSharing)
  | acceptInvitation (sid ts : String)
  | updateSharingPermission (sid : String) (perm : Permission)
  | deleteSharing (sid : String)

/-- Embedded from the schema: one authenticated statement against the
database.  `none` means the statement is rejected — by an RLS policy
(`WITH CHECK`/`USING`), by a CHECK or UNIQUE constraint, or because no
policy of that command class exists on the table (`versions` has SELECT
and INSERT policies only: *"Versions cannot be updated or deleted
(immutable) — no UPDATE or DELETE policies needed"*).  `DELETE` on
`projects` cascades to `versions` and `project_sharing`
(`ON DELETE CASCADE`). -/
def applyOp (u : String) : DBOp → DBState → Option DBState
  | .insertProject id owner name descr xmlOpt ts, s =>
    let xml := xmlOpt.getD defaultProjectXml
    if owner = u ∧ name_not_empty name = true ∧ xml_valid_format xml = true then
      some ⟨s.projects ++ [⟨id, owner, name, descr, xml, false, none, none, ts, ts⟩],
        s.versions, s.project_sharing⟩
    else none
  | .updateProjectXml pid newXml ts, s =>
    if user_can_edit_project s.projects s.project_sharing u pid = true ∧
        xml_valid_format newXml = true then
      some ⟨s.projects.map (fun p =>
          if p.id = pid then
            ⟨p.id, p.owner_id, p.name, p.description, newXml, p.is_public,
              some u, some ts, p.created_at, ts⟩
          else p),
        s.versions, s.project_sharing⟩
    else none
  | .deleteProject pid, s =>
    if isOwner s u pid = true then
      some ⟨s.projects.filter (fun p => !(p.id = pid)),
        s.versions.filter (fun v => !(v.project_id = pid)),
        s.project_sharing.filter (fun sh => !(sh.project_id = pid))⟩
    else none
  | .insertVersion v, s =>
    if (isOwner s u v.project_id = true ∨
          user_can_edit_project s.projects s.project_sharing u v.project_id = true) ∧
        s.projects.any (fun p => p.id = v.project_id) = true ∧
        name_not_empty v.name = true ∧ xml_valid_format v.xml = true ∧
        0 < v.version_number ∧
        s.versions.all (fun w =>
          !(w.project_id = v.project_id && w.version_number = v.version_number)) = true then
      some ⟨s.projects, s.versions ++ [v], s.project_sharing⟩
    else none
  | .updateVersion _ _, _ => none
  | .deleteVersion _, _ => none
  | .insertSharing sh, s =>
    if isOwner s u sh.project_id = true ∧
        s.project_sharing.all (fun t =>
          !(t.project_id = sh.project_id && t.user_id = sh.user_id)) = true then
      some ⟨s.projects, s.versions, s.project_sharing ++ [sh]⟩
    else none
  | .acceptInvitation sid ts, s =>
    some ⟨s.projects, s.versions,
      s.project_sharing.map (fun t =>
        if t.id = sid ∧ t.user_id = u then
          ⟨t.id, t.project_id, t.user_id, t.permission, t.invited_by, t.invited_at, some ts⟩
        else t)⟩
  | .updateSharingPermission sid perm, s =>
    some ⟨s.projects, s.versions,
      s.project_sharing.map (fun t =>
        if t.id = sid ∧ isOwner s u t.project_id = true then
          ⟨t.id, t.project_id, t.user_id, perm, t.invited_by, t.invited_at, t.accepted_at⟩
        else t)⟩
  | .deleteSharing sid, s =>
    some ⟨s.projects, s.versions,
      s.project_sharing.filter (fun t =>
        !(t.id = sid && (t.user_id = u || isOwner s u t.project_id)))⟩

/-- Every stored xml document (current project documents and version
snapshots) satisfies the `xml_valid_format` CHECK. -/
def dbXmlInvariant (s : DBState) : Bool :=
  s.projects.all (fun p => xml_valid_format p.xml) &&
  s.versions.all (fun v => xml_valid_format v.xml)

/-! ## Version numbering -/

theorem foldl_max_bounds (l : List Int) (a : Int) :
    a ≤ l.foldl max a ∧ ∀ x ∈ l, x ≤ l.foldl max a := by
  induction l generalizing a with
  | nil => exact ⟨le_refl a, by simp⟩
  | cons b t ih =>
    obtain ⟨h1, h2⟩ := ih (max a b)
    refine ⟨le_trans (le_max_left a b) h1, ?_⟩
    intro x hx
    rcases List.mem_cons.mp hx with rfl | hm
    · exact le_trans (le_max_right a _) h1
    · exact h2 x hm

theorem get_next_gt (versions : List Version) (pid : String) (v : Version)
    (hv : v ∈ versions) (hp : v.project_id = pid) :
    v.version_number < get_next_version_number versions pid := by
  have hmem : v.version_number ∈
      (versions.filter (fun v => v.project_id = pid)).map (fun v => v.version_number) :=
    List.mem_map.mpr ⟨v, List.mem_filter.mpr ⟨hv, by simp [hp]⟩, rfl⟩
  unfold get_next_version_number
  cases hl : (versions.filter (fun v => v.project_id = pid)).map (fun v => v.version_number) with
  | nil => rw [hl] at hmem; simp at hmem
  | cons x xs =>
    rw [hl] at hmem
    simp only [sqlMaxInt, Option.getD_some]
    rcases List.mem_cons.mp hmem with heq | hm
    · have := (foldl_max_bounds xs x).1
      omega
    · have := (foldl_max_bounds xs x).2 _ hm
      omega

theorem get_next_empty (versions : List Version) (pid : String)
    (h : versions.filter (fun v => v.project_id = pid) = []) :
    get_next_version_number versions pid = 1 := by
  unfold get_next_version_number
  rw [h]
  rfl

theorem pairwiseUnique_eq (versions : List Version)
    (h : pairwiseUniqueVersion versions = true) :
    ∀ v ∈ versions, ∀ w ∈ versions, v.project_id = w.project_id →
      v.version_number = w.version_number → v = w := by
  induction versions with
  | nil => simp
  | cons a t ih =>
    simp only [pairwiseUniqueVersion, Bool.and_eq_true] at h
    intro v hv w hw hpid hnum
    rcases List.mem_cons.mp hv with rfl | hv' <;> rcases List.mem_cons.mp hw with rfl | hw'
    · rfl
    · have hall := List.all_eq_true.mp h.1 w hw'
      simp only [Bool.not_eq_true', Bool.and_eq_false_iff, decide_eq_false_iff_not] at hall
      rcases hall with h' | h'
      · exact absurd hpid.symm h'
      · exact absurd hnum.symm h'
    · have hall := List.all_eq_true.mp h.1 v hv'
      simp only [Bool.not_eq_true', Bool.and_eq_false_iff, decide_eq_false_iff_not] at hall
      rcases hall with h' | h'
      · exact absurd hpid h'
      · exact absurd hnum h'
    · exact ih h.2 v hv' w hw' hpid hnum

theorem pairwiseUnique_append_singleton (versions : List Version) (w : Version)
    (h : pairwiseUniqueVersion versions = true)
    (hw : ∀ v ∈ versions,
      ¬(v.project_id = w.project_id ∧ v.version_number = w.version_number)) :
    pairwiseUniqueVersion (versions ++ [w]) = true := by
  induction versions with
  | nil => simp [pairwiseUniqueVersion]
  | cons a t ih =>
    rw [List.cons_append]
    simp only [pairwiseUniqueVersion, Bool.and_eq_true] at h ⊢
    refine ⟨?_, ih h.2 (fun v hv => hw v (List.mem_cons_of_mem _ hv))⟩
    rw [List.all_append]
    simp only [Bool.and_eq_true]
    refine ⟨h.1, ?_⟩
    simp only [List.all_cons, List.all_nil, Bool.and_true, Bool.not_eq_true',
      Bool.and_eq_false_iff, decide_eq_false_iff_not]
    have := hw a (List.mem_cons_self a t)
    by_cases hpid : w.project_id = a.project_id
    · right
      intro hnum
      exact this ⟨hpid.symm, hnum.symm⟩
    · left
      exact hpid

/-! ## Version row persistence -/

theorem version_rows_persist (u : String) (op : DBOp) (s s2 : DBState) (v : Version)
    (h : applyOp u op s = some s2) (hv : v ∈ s.versions) :
    v ∈ s2.versions ∨ ∃ pid, op = DBOp.deleteProject pid ∧ v.project_id = pid := by
  cases op with
  | insertProject id owner name descr xmlOpt ts =>
    simp only [applyOp] at h
    split_ifs at h with hc
    · simp only [Option.some.injEq] at h
      subst h
      exact Or.inl hv
  | updateProjectXml pid newXml ts =>
    simp only [applyOp] at h
    split_ifs at h with hc
    · simp only [Option.some.injEq] at h
      subst h
      exact Or.inl hv
  | deleteProject pid =>
    simp only [applyOp] at h
    split_ifs at h with hc
    · simp only [Option.some.injEq] at h
      subst h
      by_cases hp : v.project_id = pid
      · exact Or.inr ⟨pid, rfl, hp⟩
      · exact Or.inl (List.mem_filter.mpr ⟨hv, by simp [hp]⟩)
  | insertVersion w =>
    simp only [applyOp] at h
    split_ifs at h with hc
    · simp only [Option.some.injEq] at h
      subst h
      exact Or.inl (List.mem_append_left _ hv)
  | updateVersion a b => exact Option.noConfusion h
  | deleteVersion a => exact Option.noConfusion h
  | insertSharing sh =>
    simp only [applyOp] at h
    split_ifs at h with hc
    · simp only [Option.some.injEq] at h
      subst h
      exact Or.inl hv
  | acceptInvitation sid ts =>
    simp only [applyOp, Option.some.injEq] at h
    subst h
    exact Or.inl hv
  | updateSharingPermission sid perm =>
    simp only [applyOp, Option.some.injEq] at h
    subst h
    exact Or.inl hv
  | deleteSharing sid =>
    simp only [applyOp, Option.some.injEq] at h
    subst h
    exact Or.inl hv

/-! ## The xml CHECK invariant -/

theorem dbXmlInvariant_preserved (u : String) (op : DBOp) (s s2 : DBState)
    (hinv : dbXmlInvariant s = true) (h : applyOp u op s = some s2) :
    dbXmlInvariant s2 = true := by
  simp only [dbXmlInvariant, Bool.and_eq_true] at hinv ⊢
  obtain ⟨hp, hv⟩ := hinv
  cases op with
  | insertProject id owner name descr xmlOpt ts =>
    simp only [applyOp] at h
    split_ifs at h with hc
    · simp only [Option.some.injEq] at h
      subst h
      refine ⟨?_, hv⟩
      rw [List.all_append]
      simp only [Bool.and_eq_true, List.all_cons, List.all_nil, Bool.and_true]
      exact ⟨hp, hc.2.2⟩
  | updateProjectXml pid newXml ts =>
    simp only [applyOp] at h
    split_ifs at h with hc
    · simp only [Option.some.injEq] at h
      subst h
      refine ⟨?_, hv⟩
      apply List.all_eq_true.mpr
      intro x hx
      obtain ⟨p, hpm, rfl⟩ := List.mem_map.mp hx
      by_cases hid : p.id = pid
      · simp only [if_pos hid]
        exact hc.2
      · simp only [if_neg hid]
        exact List.all_eq_true.mp hp p hpm
  | deleteProject pid =>
    simp only [applyOp] at h
    split_ifs at h with hc
    · simp only [Option.some.injEq] at h
      subst h
      exact ⟨List.all_eq_true.mpr (fun x hx =>
          List.all_eq_true.mp hp x (List.mem_filter.mp hx).1),
        List.all_eq_true.mpr (fun x hx =>
          List.all_eq_true.mp hv x (List.mem_filter.mp hx).1)⟩
  | insertVersion w =>
    simp only [applyOp] at h
    split_ifs at h with hc
    · simp only [Option.some.injEq] at h
      subst h
      refine ⟨hp, ?_⟩
      rw [List.all_append]
      simp only [Bool.and_eq_true, List.all_cons, List.all_nil, Bool.and_true]
      exact ⟨hv, hc.2.2.2.1⟩
  | updateVersion a b => exact Option.noConfusion h
  | deleteVersion a => exact Option.noConfusion h
  | insertSharing sh =>
    simp only [applyOp] at h
    split_ifs at h with hc
    · simp only [Option.some.injEq] at h
      subst h
      exact ⟨hp, hv⟩
  | acceptInvitation sid ts =>
    simp only [applyOp, Option.some.injEq] at h
    subst h
    exact ⟨hp, hv⟩
  | updateSharingPermission sid perm =>
    simp only [applyOp, Option.some.injEq] at h
    subst h
    exact ⟨hp, hv⟩
  | deleteSharing sid =>
    simp only [applyOp, Option.some.injEq] at h
    subst h
    exact ⟨hp, hv⟩

theorem insertProject_default_xml (u id owner name : String) (descr : Option String)
    (ts : String) (s s2 : DBState)
    (h : applyOp u (.insertProject id owner name descr none ts) s = some s2) :
    ∃ p ∈ s2.projects, p.id = id ∧ p.xml = defaultProjectXml := by
  simp only [applyOp] at h
  split_ifs at h with hc
  · simp only [Option.some.injEq] at h
    subst h
    refine ⟨⟨id, owner, name, descr, (none : Option String).getD defaultProjectXml,
      false, none, none, ts, ts⟩, ?_, rfl, rfl⟩
    exact List.mem_append_right _ (List.mem_singleton.mpr rfl)

/-! ## Edit permission -/

theorem user_can_edit_project_iff (projects : List Project)
    (sharing : List ProjectSharing) (u p : String) :
    user_can_edit_project projects sharing u p = true ↔
      (∃ pr ∈ projects, pr.id = p ∧ pr.owner_id = u) ∨
      (∃ sh ∈ sharing, sh.project_id = p ∧ sh.user_id = u ∧
        sh.permission = Permission.edit ∧ sh.accepted_at ≠ none) := by
  simp [user_can_edit_project, List.any_eq_true, Bool.and_eq_true, beq_iff_eq,
    Option.isSome_iff_ne_none, decide_eq_true_eq, and_assoc]

theorem no_edit_when_pending_or_view (projects : List Project)
    (sharing : List ProjectSharing) (u p : String)
    (hown : ∀ pr ∈ projects, pr.id = p → pr.owner_id ≠ u)
    (hsh : ∀ sh ∈ sharing, sh.project_id = p → sh.user_id = u →
      sh.permission = Permission.view ∨ sh.accepted_at = none) :
    user_can_edit_project projects sharing u p = false := by
  apply Bool.eq_false_iff.mpr
  intro htrue
  rcases (user_can_edit_project_iff projects sharing u p).mp htrue with
    ⟨pr, hm, h1, h2⟩ | ⟨sh, hm, h1, h2, h3, h4⟩
  · exact hown pr hm h1 h2
  · rcases hsh sh hm h1 h2 with hview | hnone
    · rw [h3] at hview
      exact Permission.noConfusion hview
    · exact h4 hnone

/-! ## Decidable equality of items -/

mutual

/-- Structural equality test for items. -/
def itemBEq : DiagramItem → DiagramItem → Bool
  | .mk i1 k1 t1 io1 lt1 ch1, .mk i2 k2 t2 io2 lt2 ch2 =>
    i1 == i2 && k1 == k2 && t1 == t2 && io1 == io2 && lt1 == lt2 && forestBEq ch1 ch2

/-- Structural equality test for forests. -/
def forestBEq : List DiagramItem → List DiagramItem → Bool
  | [], [] => true
  | x :: xs, y :: ys => itemBEq x y && forestBEq xs ys
  | _, _ => false

end

mutual

theorem itemBEq_iff : ∀ a b : DiagramItem, itemBEq a b = true ↔ a = b
  | .mk i1 k1 t1 io1 lt1 ch1, .mk i2 k2 t2 io2 lt2 ch2 => by
    simp [itemBEq, Bool.and_eq_true, beq_iff_eq, forestBEq_iff ch1 ch2,
      DiagramItem.mk.injEq, and_assoc]

theorem forestBEq_iff : ∀ xs ys : List DiagramItem, forestBEq xs ys = true ↔ xs = ys
  | [], [] => by simp [forestBEq]
  | [], y :: ys => by simp [forestBEq]
  | x :: xs, [] => by simp [forestBEq]
  | x :: xs, y :: ys => by
    simp [forestBEq, Bool.and_eq_true, itemBEq_iff x y, forestBEq_iff xs ys]

end

instance : DecidableEq DiagramItem := fun a b => decidable_of_iff _ (itemBEq_iff a b)

/-! ## Concrete documents and states used by the claim witnesses -/

/-- A small well-formed tree: one Object with one Info in the Object Map;
one Page in the Site Map carrying a self-link, an instance of the Info,
and a Function/Case pair linked in a two-cycle. -/
def exampleTree : ParsedData :=
  ⟨[[.mk "o1" .object (some "User") none []
      [.mk "i1" .info (some "Name") none [] []]]],
   [[.mk "p1" .page (some "Home") none ["p1"]
      [.mk "inst1" .info none (some "i1") [] [],
       .mk "f1" .functionKind (some "Save") none ["g1"] [],
       .mk "g1" .caseKind (some "Err") none ["f1"] []]]]⟩

/-- A valid tree whose Object Map has one Object `o1` with one Info `i1`. -/
def cex6tree : ParsedData :=
  ⟨[[.mk "o1" .object (some "User") none []
      [.mk "i1" .info (some "Name") none [] []]]], []⟩

/-- A fresh childless Info item. -/
def cex6child : DiagramItem := .mk "i2" .info (some "X") none [] []

/-- The tree `cex6tree` after successfully inserting a fresh Info under the
Object `o1`. -/
def w5result : ParsedData :=
  ⟨[[.mk "o1" .object (some "User") none []
      [.mk "i1" .info (some "Name") none [] [],
       .mk "i9" .info (some "Y") none [] []]]], []⟩

/-- Two stored versions of project `pr1`, numbered 1 and 2. -/
def versionsEx : List Version :=
  [⟨"v1", "pr1", "First", none, "<?xml version=\"1.0\"?>", 1, "alice", "t1"⟩,
   ⟨"v2", "pr1", "Second", none, "<?xml version=\"1.0\"?>", 2, "alice", "t2"⟩]

/-- A database state: one project owned by alice with one version. -/
def st8 : DBState :=
  ⟨[⟨"p1", "alice", "Proj", none, defaultProjectXml, false, none, none, "t0", "t0"⟩],
   [⟨"v1", "p1", "V1", none, defaultProjectXml, 1, "alice", "t1"⟩], []⟩

/-- The single version row of `st8`. -/
def v8 : Version := ⟨"v1", "p1", "V1", none, defaultProjectXml, 1, "alice", "t1"⟩

/-- The empty database state. -/
def st10 : DBState := ⟨[], [], []⟩

/-- The state after alice creates project `p1` with the default document. -/
def st10after : DBState :=
  ⟨[⟨"p1", "alice", "Proj", none, defaultProjectXml, false, none, none, "t0", "t0"⟩], [], []⟩

/-- A project owned by alice. -/
def proj9 : Project :=
  ⟨"p1", "alice", "Proj", none, defaultProjectXml, false, none, none, "t", "t"⟩

/-- A pending (unaccepted) edit invitation for bob. -/
def sh9pending : ProjectSharing := ⟨"s1", "p1", "bob", .edit, "alice", "t", none⟩

/-- An accepted view-only share for carol. -/
def sh9view : ProjectSharing := ⟨"s2", "p1", "carol", .view, "alice", "t", some "t2"⟩

/-! ## The claims -/

/-- Claim C1: for every tree `t` that satisfies all Tree invariants (the
whole-document validation accepts it and its strings are representable in
XML attribute values), parsing the string produced by the Generator yields
a tree structurally equal to `t`: `parseXML (generateXML t) = ok t`. -/
theorem claim_C1_roundtrip (pd : ParsedData) (h : wellFormedData pd = true) :
    parseXML (generateXML pd) = Except.ok pd :=
  parseXML_generateXML pd h

/-- Witness for C1: the round trip at a concrete well-formed tree. -/
theorem claim_C1_roundtrip_witness :
    wellFormedData exampleTree = true ∧
    parseXML (generateXML exampleTree) = Except.ok exampleTree :=
  ⟨by decide, claim_C1_roundtrip exampleTree (by decide)⟩

/-- Claim C2: for all trees `A`, `B`, the set of Added changes of
`detectChanges A B` equals (as the ordered list of affected ids) the set
of Removed changes of `detectChanges B A` and vice versa, and
`detectChanges A A` is the empty change list. -/
theorem claim_C2_diff_symmetry (A B : ParsedData) :
    addedIds (detectChanges A B) = removedIds (detectChanges B A) ∧
    removedIds (detectChanges A B) = addedIds (detectChanges B A) ∧
    detectChanges A A = [] := by
  refine ⟨?_, ?_, detectChanges_self A⟩
  · rw [addedIds_detectChanges A B, removedIds_detectChanges B A]
  · rw [removedIds_detectChanges A B, addedIds_detectChanges B A]

/-- Claim C3: in every successfully parsed document, a non-instance item
has a non-empty title, while an instance item carries no title of its own
and its `instanceOf` target resolves among the Object Map NL1I items (from
which its displayed title is read). -/
theorem claim_C3_title_optional (s : String) (pd : ParsedData)
    (h : parseXML s = Except.ok pd) :
    ∀ it ∈ allItems pd,
      (it.instanceOf = none → ∃ t, it.title = some t ∧ t ≠ "") ∧
      (∀ ref, it.instanceOf = some ref →
        it.title = none ∧ ref ∈ idsOf (omNestedItems pd)) := by
  have hval := (validateData_eq_none pd).mp (parseXML_ok_validate h)
  intro it hit
  have ht := List.all_eq_true.mp hval.2.1 it hit
  have hi := List.all_eq_true.mp hval.2.2.2.2.1 it hit
  rcases it with ⟨i, k, t, io, lt, ch⟩
  constructor
  · intro hio
    simp only [DiagramItem.instanceOf] at hio
    subst hio
    simp only [titleRuleB] at ht
    cases t with
    | none => exact Bool.noConfusion ht
    | some str =>
      refine ⟨str, rfl, ?_⟩
      intro hstr
      subst hstr
      simp at ht
  · intro ref hio
    simp only [DiagramItem.instanceOf] at hio
    subst hio
    simp only [titleRuleB] at ht
    refine ⟨?_, ?_⟩
    · show (DiagramItem.mk i k t (some ref) lt ch).title = none
      simp only [DiagramItem.title]
      exact Option.isNone_iff_eq_none.mp ht
    · simp only [DiagramItem.instanceOf] at hi
      exact List.elem_iff.mp hi

/-- Witness for C3: in the parsed concrete document, the instance `inst1`
has no title and its target `i1` is an Object Map NL1I id. -/
theorem claim_C3_witness :
    (DiagramItem.mk "inst1" .info none (some "i1") [] []).title = none ∧
    "i1" ∈ idsOf (omNestedItems exampleTree) :=
  (claim_C3_title_optional (generateXML exampleTree) exampleTree
      (parseXML_generateXML exampleTree (by decide))
      (DiagramItem.mk "inst1" .info none (some "i1") [] []) (by decide)).2 "i1" rfl

/-- Claim C4: `get_next_version_number` returns 1 for a project with no
versions and otherwise a value strictly greater than every stored
`version_number` of the project; under the `unique_version_number`
constraint no two versions of one project share a number; and inserting a
row numbered with `get_next_version_number` preserves the constraint. -/
theorem claim_C4_version_numbering (versions : List Version) (pid : String) :
    (versions.filter (fun v => v.project_id = pid) = [] →
      get_next_version_number versions pid = 1) ∧
    (∀ v ∈ versions, v.project_id = pid →
      v.version_number < get_next_version_number versions pid) ∧
    (pairwiseUniqueVersion versions = true →
      ∀ v ∈ versions, ∀ w ∈ versions, v.project_id = w.project_id →
        v.version_number = w.version_number → v = w) ∧
    (∀ newV : Version, pairwiseUniqueVersion versions = true → newV.project_id = pid →
      newV.version_number = get_next_version_number versions pid →
      pairwiseUniqueVersion (versions ++ [newV]) = true) := by
  refine ⟨get_next_empty versions pid,
    fun v hv hp => get_next_gt versions pid v hv hp,
    pairwiseUnique_eq versions, ?_⟩
  intro newV hpw hpid hnum
  apply pairwiseUnique_append_singleton versions newV hpw
  intro v hv hcontra
  have hlt := get_next_gt versions pid v hv (hcontra.1.trans hpid)
  rw [← hnum] at hlt
  exact absurd hcontra.2 (by omega)

/-- Witness for C4: at a concrete version table, the first stored number is
below the next one, and appending a row numbered with the function keeps
the uniqueness constraint. -/
theorem claim_C4_witness :
    (⟨"v1", "pr1", "First", none, "<?xml version=\"1.0\"?>", 1, "alice", "t1"⟩
      : Version).version_number < get_next_version_number versionsEx "pr1" ∧
    pairwiseUniqueVersion (versionsEx ++
      [⟨"v3", "pr1", "Third", none, "<?xml version=\"1.0\"?>",
        get_next_version_number versionsEx "pr1", "bob", "t3"⟩]) = true := by
  constructor
  · exact (claim_C4_version_numbering versionsEx "pr1").2.1 _ (by decide) rfl
  · exact (claim_C4_version_numbering versionsEx "pr1").2.2.2 _ (by decide) rfl rfl

/-- Claim C5: the Object Map nesting invariant — every Object Map NL1I
item has an empty children list — is established by the parser and
preserved by every mutation-API operation (which re-validates and rejects
otherwise), while Site Map NL1I nesting is unbounded: an arbitrarily deep
Site Map chain still validates. -/
theorem claim_C5_nesting_invariant :
    (∀ (m : Mutation) (pd pd2 : ParsedData),
      applyMutation m pd = Except.ok pd2 → omNestingInv pd2 = true) ∧
    (∀ (s : String) (pd : ParsedData),
      parseXML s = Except.ok pd → omNestingInv pd = true) ∧
    (∀ n : Nat, validateData (siteChainTree n) = none ∧
      itemDepth (siteChain 1 n) = n + 1) := by
  refine ⟨fun m pd pd2 h => applyMutation_ok_nestingInv h, ?_,
    fun n => ⟨validateData_siteChainTree n, itemDepth_siteChain 1 n⟩⟩
  intro s pd h
  exact omStructureOk_nestingInv
    (((validateData_eq_none pd).mp (parseXML_ok_validate h)).2.2.1)

/-- Witness for C5: a successful concrete insert keeps the invariant, and
the depth-4 Site Map chain validates. -/
theorem claim_C5_witness :
    omNestingInv w5result = true ∧ validateData (siteChainTree 3) = none :=
  ⟨claim_C5_nesting_invariant.1
      (.insertItem "o1" (.mk "i9" .info (some "Y") none [] [])) cex6tree w5result rfl,
    (claim_C5_nesting_invariant.2.2 3).1⟩

/-- Counterexample to C6 as stated: inserting a child under the Object Map
NL1I item `i1` (which has no children) does not succeed — it is rejected
with `NestingDepthExceeded`, because the child would sit at the second
nesting level below the Object. -/
theorem claim_C6_counterexample :
    applyMutation (Mutation.insertItem "i1" cex6child) cex6tree
      = Except.error MutationError.nestingDepthExceeded ∧
    ∀ pd2 : ParsedData,
      applyMutation (Mutation.insertItem "i1" cex6child) cex6tree ≠ Except.ok pd2 := by
  refine ⟨rfl, ?_⟩
  intro pd2 h
  rw [show applyMutation (Mutation.insertItem "i1" cex6child) cex6tree
      = Except.error MutationError.nestingDepthExceeded from rfl] at h
  exact Except.noConfusion h

/-- Claim C6 (amended): on a valid tree, inserting any child under an
Object Map NL1I item — i.e. producing a grandchild (second nesting level)
under an Object Map Object — is rejected with `NestingDepthExceeded`, and
the Tree is left unchanged by the rejection. -/
theorem claim_C6_insert_nesting (pd : ParsedData) (pid : String) (c : DiagramItem)
    (hvalid : validateData pd = none) (hpid : pid ∈ idsOf (omNestedItems pd)) :
    applyMutation (.insertItem pid c) pd = .error .nestingDepthExceeded ∧
    applyMutationState (.insertItem pid c) pd = pd :=
  insert_under_omNested_rejected pd pid c hvalid hpid

/-- Witness for C6 (amended) at the concrete tree. -/
theorem claim_C6_insert_nesting_witness :
    applyMutation (Mutation.insertItem "i1"
        (DiagramItem.mk "i3" .info (some "Z") none [] [])) cex6tree
      = Except.error MutationError.nestingDepthExceeded ∧
    applyMutationState (Mutation.insertItem "i1"
        (DiagramItem.mk "i3" .info (some "Z") none [] [])) cex6tree = cex6tree :=
  claim_C6_insert_nesting cex6tree "i1" (DiagramItem.mk "i3" .info (some "Z") none [] [])
    (by decide) (by decide)

/-- Claim C7: in every valid (successfully parsed) tree, each `linkTo` id
resolves to an existing item of the same map as the source item; and
self-references and cycles are accepted — the concrete document with a
self-link and a two-cycle parses successfully. -/
theorem claim_C7_links_same_map :
    (∀ (s : String) (pd : ParsedData), parseXML s = Except.ok pd →
      (∀ it ∈ omItems pd, ∀ l ∈ it.linkTo, l ∈ idsOf (omItems pd)) ∧
      (∀ it ∈ smItems pd, ∀ l ∈ it.linkTo, l ∈ idsOf (smItems pd))) ∧
    parseXML (generateXML exampleTree) = Except.ok exampleTree := by
  constructor
  · intro s pd h
    have hl := ((validateData_eq_none pd).mp (parseXML_ok_validate h)).2.2.2.2.2
    simp only [linksOkB, Bool.and_eq_true] at hl
    constructor
    · intro it hit l hll
      have h1 := List.all_eq_true.mp hl.1 it hit
      exact List.elem_iff.mp (List.all_eq_true.mp h1 l hll)
    · intro it hit l hll
      have h1 := List.all_eq_true.mp hl.2 it hit
      exact List.elem_iff.mp (List.all_eq_true.mp h1 l hll)
  · exact parseXML_generateXML exampleTree (by decide)

/-- Witness for C7: in the parsed cyclic document, the link target `g1` of
the Function `f1` resolves inside the Site Map. -/
theorem claim_C7_witness : "g1" ∈ idsOf (smItems exampleTree) :=
  (claim_C7_links_same_map.1 (generateXML exampleTree) exampleTree
      claim_C7_links_same_map.2).2
    (DiagramItem.mk "f1" .functionKind (some "Save") none ["g1"] []) (by decide)
    "g1" (by decide)

/-- Counterexample to C8 as stated: a version row can disappear — deleting
its project (allowed to the owner by the projects DELETE policy) cascades
to the `versions` table, so an operation of the system does delete it. -/
theorem claim_C8_counterexample :
    applyOp "alice" (DBOp.deleteProject "p1") st8 = some ⟨[], [], []⟩ ∧
    v8 ∈ st8.versions ∧ v8 ∉ (⟨[], [], []⟩ : DBState).versions := by
  refine ⟨rfl, by decide, by decide⟩

/-- Claim C8 (amended): a version row is never updated and never deleted
on its own — `versions` has no UPDATE or DELETE policy, so those
statements are always rejected — and every version row survives every
successful operation unchanged (all its fields constant), except that it
is removed by the cascade when its parent project is deleted. -/
theorem claim_C8_version_immutability :
    (∀ (u vid newXml : String) (s : DBState),
      applyOp u (DBOp.updateVersion vid newXml) s = none) ∧
    (∀ (u vid : String) (s : DBState), applyOp u (DBOp.deleteVersion vid) s = none) ∧
    (∀ (u : String) (op : DBOp) (s s2 : DBState) (v : Version),
      applyOp u op s = some s2 → v ∈ s.versions →
      v ∈ s2.versions ∨ ∃ pid, op = DBOp.deleteProject pid ∧ v.project_id = pid) :=
  ⟨fun _ _ _ _ => rfl, fun _ _ _ => rfl, version_rows_persist⟩

/-- Witness for C8 (amended): a concrete UPDATE on `versions` is rejected,
and the version row survives a concrete unrelated operation. -/
theorem claim_C8_witness :
    applyOp "alice" (DBOp.updateVersion "v1" "other") st8 = none ∧
    (v8 ∈ st8.versions ∨
      ∃ pid, DBOp.acceptInvitation "s1" "t2" = DBOp.deleteProject pid ∧
        v8.project_id = pid) :=
  ⟨claim_C8_version_immutability.1 "alice" "v1" "other" st8,
    claim_C8_version_immutability.2.2 "bob" (DBOp.acceptInvitation "s1" "t2")
      st8 st8 v8 rfl (by decide)⟩

/-- Claim C9: `user_can_edit_project u p` is true exactly when `u` owns
`p` or holds an accepted `project_sharing` row for `(p, u)` with
permission `edit`; a pending or view-only share never grants edit. -/
theorem claim_C9_edit_permission (projects : List Project)
    (sharing : List ProjectSharing) (u p : String) :
    (user_can_edit_project projects sharing u p = true ↔
      (∃ pr ∈ projects, pr.id = p ∧ pr.owner_id = u) ∨
      (∃ sh ∈ sharing, sh.project_id = p ∧ sh.user_id = u ∧
        sh.permission = Permission.edit ∧ sh.accepted_at ≠ none)) ∧
    ((∀ pr ∈ projects, pr.id = p → pr.owner_id ≠ u) →
      (∀ sh ∈ sharing, sh.project_id = p → sh.user_id = u →
        sh.permission = Permission.view ∨ sh.accepted_at = none) →
      user_can_edit_project projects sharing u p = false) :=
  ⟨user_can_edit_project_iff projects sharing u p,
    fun h1 h2 => no_edit_when_pending_or_view projects sharing u p h1 h2⟩

/-- Witness for C9: the owner can edit; a pending edit invitation and an
accepted view-only share cannot. -/
theorem claim_C9_witness :
    user_can_edit_project [proj9] [sh9pending, sh9view] "alice" "p1" = true ∧
    user_can_edit_project [proj9] [sh9pending, sh9view] "bob" "p1" = false ∧
    user_can_edit_project [proj9] [sh9pending, sh9view] "carol" "p1" = false := by
  refine ⟨?_, ?_, ?_⟩
  · exact (claim_C9_edit_permission [proj9] [sh9pending, sh9view] "alice" "p1").1.mpr
      (Or.inl ⟨proj9, by decide, rfl, rfl⟩)
  · exact (claim_C9_edit_permission [proj9] [sh9pending, sh9view] "bob" "p1").2
      (by decide) (by decide)
  · exact (claim_C9_edit_permission [proj9] [sh9pending, sh9view] "carol" "p1").2
      (by decide) (by decide)

/-- Claim C10: the `xml_valid_format` CHECK (the stored string starts with
`<?xml version="1.0"`) is preserved by every successful operation on
projects and versions, and a project created without an explicit document
gets exactly the empty skeleton of the column DEFAULT: the UTF-8 header,
then `<xml><Diagram>` with an empty `<ObjectMap>` and an empty
`<SiteMap>`. -/
theorem claim_C10_xml_format :
    (∀ (u : String) (op : DBOp) (s s2 : DBState),
      dbXmlInvariant s = true → applyOp u op s = some s2 → dbXmlInvariant s2 = true) ∧
    defaultProjectXml =
      "<?xml version=\"1.0\" encoding=\"UTF-8\"?>\n<xml>\n  <Diagram>\n    <ObjectMap>\n    </ObjectMap>\n    <SiteMap>\n    </SiteMap>\n  </Diagram>\n</xml>" ∧
    xml_valid_format defaultProjectXml = true ∧
    (∀ (u id owner name : String) (descr : Option String) (ts : String) (s s2 : DBState),
      applyOp u (.insertProject id owner name descr none ts) s = some s2 →
      ∃ p ∈ s2.projects, p.id = id ∧ p.xml = defaultProjectXml) :=
  ⟨fun u op s s2 h1 h2 => dbXmlInvariant_preserved u op s s2 h1 h2, rfl, by decide,
    insertProject_default_xml⟩

/-- Witness for C10: creating a project in the empty state yields a state
satisfying the invariant whose project carries the default document. -/
theorem claim_C10_witness :
    dbXmlInvariant st10after = true ∧
    ∃ p ∈ st10after.projects, p.id = "p1" ∧ p.xml = defaultProjectXml := by
  have h : applyOp "alice" (DBOp.insertProject "p1" "alice" "Proj" none none "t0") st10
      = some st10after := rfl
  exact ⟨claim_C10_xml_format.1 "alice" _ st10 st10after (by decide) h,
    claim_C10_xml_format.2.2.2 "alice" "p1" "alice" "Proj" none "t0" st10 st10after h⟩

end Babel
